import Mathlib

/-!
# Sleepy: watchdog driven low-power sleeping

A shallow embedding of `src/Sleepy.cpp` (class `Sleepy`, AVR target) and the
properties of its sleep-budget scheduler `Sleepy::loseSomeTime`.

Machine integers are natural numbers (or integers for the signed `char`) with
the C conversions written out as explicit reductions modulo `2^8`, `2^16` and
`2^32`.  On the AVR target `int` and `word` are 16 bit wide, `byte` is 8 bit
wide and `unsigned long` is 32 bit wide.

The hardware is a record of the registers the code touches, the global
interrupt flag, and two logs: the calls issued by `loseSomeTime` and every
register write together with the interrupt flag at the time of the write.
The environment of `powerDown` (what happens while the processor is halted) is
a wake pattern `env : Nat → Nat`: `env k` is the number of times the watchdog
interrupt handler `watchdogEvent` has run when the `k`-th coming `powerDown`
returns.
-/

namespace Sleepy

/-! ## Machine integers -/

/-- Conversion to `byte` (unsigned, 8 bit). -/
def toByte (n : Nat) : Nat := n % 256

/-- Conversion to `word` (unsigned, 16 bit). -/
def toWord (n : Nat) : Nat := n % 65536

/-- Conversion to `unsigned long` (32 bit). -/
def toULong (n : Nat) : Nat := n % 4294967296

/-- Integral promotion of a signed `char` to `unsigned long` (two-complement). -/
def charToULong (c : Int) : Nat := (c % 4294967296).toNat

/-- Conversion of an `unsigned long` to the signed 8 bit `char`. -/
def ulongToChar (n : Nat) : Int :=
  if n % 256 < 128 then ((n % 256 : Nat) : Int) else ((n % 256 : Nat) : Int) - 256

/-- Arduino `bit(b)`, that is `(1UL << (b))`. -/
def bit (b : Nat) : Nat := toULong (1 <<< b)

/-! ## Register bit positions

`Sleepy.cpp` takes these from the AVR device header (`avr/io.h`), which is not
part of the repository; the values are those of the ATmega328P data sheet. -/

/-- Bit position of the watchdog interrupt enable bit in `WDTCSR`. -/
def WDIE : Nat := 6

/-- Bit position of the fourth prescaler bit in `WDTCSR`. -/
def WDP3 : Nat := 5

/-- Bit position of the watchdog change enable bit in `WDTCSR`. -/
def WDCE : Nat := 4

/-- Bit position of the watchdog system reset enable bit in `WDTCSR`. -/
def WDE : Nat := 3

/-- Bit position of the watchdog reset flag in `MCUSR`. -/
def WDRF : Nat := 3

/-- Bit position of the brown-out detector sleep bit in `MCUCR`. -/
def BODS : Nat := 6

/-- Bit position of the brown-out detector sleep enable bit in `MCUCR`. -/
def BODSE : Nat := 5

/-! ## Hardware state -/

/-- The calls `loseSomeTime` issues, in program order. -/
inductive Op where
  | counterReset
  | watchdogInterrupts (mode : Int)
  | powerDown
  deriving DecidableEq, Repr

/-- The memory locations written by the code. -/
inductive Reg where
  | MCUSR
  | WDTCSR
  | MCUCR
  | timer0_millis
  deriving DecidableEq, Repr

/-- One register write: the location, the value stored, and the global
interrupt flag at the moment of the write. -/
structure Write where
  reg : Reg
  value : Nat
  I : Bool
  deriving DecidableEq, Repr

/-- The part of the machine `Sleepy.cpp` reads and writes. -/
structure State where
  /-- The file-level `static volatile byte watchdogCounter`. -/
  watchdogCounter : Nat
  /-- The millisecond clock `timer0_millis` (`millis_timer_millis` on ATtiny). -/
  timer0_millis : Nat
  /-- The global interrupt enable flag of `SREG`. -/
  I : Bool
  MCUSR : Nat
  WDTCSR : Nat
  MCUCR : Nat
  /-- Log of the calls issued by `loseSomeTime`. -/
  trace : List Op
  /-- Log of all register writes. -/
  writes : List Write
  deriving DecidableEq, Repr

/-- A store to a register, logged with the current interrupt flag. -/
def State.write (st : State) (r : Reg) (v : Nat) : State :=
  let st := { st with writes := st.writes ++ [Write.mk r v st.I] }
  match r with
  | .MCUSR => { st with MCUSR := v }
  | .WDTCSR => { st with WDTCSR := v }
  | .MCUCR => { st with MCUCR := v }
  | .timer0_millis => { st with timer0_millis := v }

/-- The kinds of `ATOMIC_BLOCK` of `util/atomic.h`. -/
inductive AtomicType where
  | ATOMIC_RESTORESTATE
  | ATOMIC_FORCEON
  deriving DecidableEq, Repr

/-- The `ATOMIC_BLOCK(type) { body }` construct of the AVR C library header
`util/atomic.h`, which `Sleepy.cpp` includes and which is not part of the
repository.  On entry the global interrupt flag is cleared (`cli`).  On exit
`ATOMIC_RESTORESTATE` writes the saved `SREG` back, while `ATOMIC_FORCEON`
saves nothing and sets the flag (`sei`). -/
def ATOMIC_BLOCK (t : AtomicType) (body : State → State) (st : State) : State :=
  let saved := st.I
  let st := body { st with I := false }
  match t with
  | .ATOMIC_RESTORESTATE => { st with I := saved }
  | .ATOMIC_FORCEON => { st with I := true }

/-! ## `Sleepy::watchdogInterrupts` -/

/-- The local `wdtcsr` of `watchdogInterrupts (char mode)`, lines 18 to 22:
`if (mode & bit(3)) mode ^= bit(3) | bit(WDP3);` followed by
`byte wdtcsr = mode >= 0 ? bit(WDIE) | mode : 0;`. -/
def wdtcsr (mode : Int) : Nat :=
  let mode :=
    if charToULong mode &&& bit 3 ≠ 0 then
      ulongToChar (charToULong mode ^^^ (bit 3 ||| bit WDP3))
    else mode
  if 0 ≤ mode then toByte (bit WDIE ||| charToULong mode) else 0

/-- The two timed writes to `WDTCSR` inside the atomic block, lines 32 and 33. -/
def watchdogTimedSequence (v : Nat) (st : State) : State :=
  let st := st.write .WDTCSR (toByte (st.WDTCSR ||| ((1 <<< WDCE) ||| (1 <<< WDE))))
  st.write .WDTCSR v

/-- `Sleepy::watchdogInterrupts (char mode)`. -/
def watchdogInterrupts (mode : Int) (st : State) : State :=
  let st := { st with trace := st.trace ++ [Op.watchdogInterrupts mode] }
  let v := wdtcsr mode
  let st := st.write .MCUSR (toByte (st.MCUSR &&& (65535 ^^^ (1 <<< WDRF))))
  ATOMIC_BLOCK .ATOMIC_FORCEON (watchdogTimedSequence v) st

/-! ## `Sleepy::watchdogEvent` and `Sleepy::powerDown` -/

/-- `Sleepy::watchdogEvent ()`: `++watchdogCounter` on a byte. -/
def watchdogEvent (st : State) : State :=
  { st with watchdogCounter := toByte (st.watchdogCounter + 1) }

/-- The two timed writes to `MCUCR` inside the atomic block of `powerDown`,
lines 50 and 51 (`sleep_enable ()` before them only sets the sleep enable
bit of the sleep mode register, which is not modelled). -/
def bodTimedSequence (st : State) : State :=
  let st := st.write .MCUCR (toByte (st.MCUCR ||| bit BODSE ||| bit BODS))
  st.write .MCUCR (toByte ((st.MCUCR &&& (4294967295 ^^^ bit BODSE)) ||| bit BODS))

/-- The halt of `sleep_cpu ()`: the processor stops until an interrupt has been
serviced; `events` is the number of times the watchdog interrupt handler
`watchdogEvent` has run by the time execution resumes. -/
def sleep_cpu (events : Nat) (st : State) : State :=
  Nat.iterate watchdogEvent events st

/-- `Sleepy::powerDown ()`.  `set_sleep_mode`, `sleep_enable` and
`sleep_disable` touch only the sleep mode register, which is not modelled. -/
def powerDown (events : Nat) (st : State) : State :=
  let st := { st with trace := st.trace ++ [Op.powerDown] }
  let st := ATOMIC_BLOCK .ATOMIC_FORCEON bodTimedSequence st
  sleep_cpu events st

/-! ## `Sleepy::loseSomeTime` -/

/-- The selection loop of lines 84 to 87, started at `m = msleft`, `wdp = 0`:
`for (word m = msleft; m >= 32; m >>= 1) { if (++wdp >= 9) break; }`.
The result is the value of `wdp` when the loop is left. -/
def wdpLoop (m wdp : Nat) : Nat :=
  if 32 ≤ m then
    if 9 ≤ wdp + 1 then wdp + 1 else wdpLoop (m >>> 1) (wdp + 1)
  else wdp
termination_by m
decreasing_by
  simp only [Nat.shiftRight_succ, Nat.shiftRight_zero]
  omega

/-- The interval code selected for a remaining budget: `char wdp = 0` followed by
the selection loop. -/
def selectWdp (msleft : Nat) : Nat := wdpLoop msleft 0

/-- The successive-halving rule as the specification words it: start with
`m = RemainingBudget`, `code = 0`; while `m ≥ 32` and `code < 9`, set
`m ← m / 2` and `code ← code + 1`. -/
def specHalving (m code : Nat) : Nat :=
  if 32 ≤ m ∧ code < 9 then specHalving (m / 2) (code + 1) else code
termination_by m
decreasing_by omega

/-- `word halfms = 8 << wdp;` (the shift is done in 16 bit `int`). -/
def halfms (wdp : Nat) : Nat := toWord (8 <<< wdp)

/-- `msleft -= halfms;` on the 16 bit unsigned `word`. -/
def subWord (msleft h : Nat) : Nat := toWord (msleft + 65536 - h)

/-! The two facts below come before the main loop because its termination proof
needs them: the half interval is at least 8 and twice it fits in the budget. -/

/-- What the selection loop guarantees, for any starting value of `wdp` below 9:
the code grows by the number of halvings, stays at most 9, and the interval
bounds hold relative to the starting code. -/
theorem wdpLoop_bounds (m wdp : Nat) (hm : 16 ≤ m) (hw : wdp < 9) :
    wdp ≤ wdpLoop m wdp ∧ wdpLoop m wdp ≤ 9 ∧
      16 * 2 ^ (wdpLoop m wdp - wdp) ≤ m ∧
      (wdpLoop m wdp < 9 → m < 32 * 2 ^ (wdpLoop m wdp - wdp)) := by
  induction m using Nat.strong_induction_on generalizing wdp with
  | _ m ih =>
    rw [wdpLoop]
    by_cases h32 : 32 ≤ m
    · by_cases h9 : 9 ≤ wdp + 1
      · simp only [h32, h9, if_true]
        refine ⟨by omega, by omega, ?_, by omega⟩
        have : wdp + 1 - wdp = 1 := by omega
        rw [this]; omega
      · simp only [h32, h9, if_true, if_false]
        have hhalf : m >>> 1 = m / 2 := by
          simp [Nat.shiftRight_succ, Nat.shiftRight_zero]
        rw [hhalf]
        obtain ⟨h1, h2, h3, h4⟩ := ih (m / 2) (by omega) (wdp + 1) (by omega) (by omega)
        generalize wdpLoop (m / 2) (wdp + 1) = w at h1 h2 h3 h4
        have hs : w - wdp = (w - (wdp + 1)) + 1 := by omega
        rw [hs, pow_succ]
        refine ⟨by omega, h2, by omega, fun hlt => ?_⟩
        have := h4 hlt
        omega
    · simp only [h32, if_false]
      simp
      omega

/-- The half interval is at least 8 and at most 4096 for every selected code, and
twice the half interval fits in the remaining budget. -/
theorem halfms_selectWdp (msleft : Nat) (h : 16 ≤ msleft) :
    8 ≤ halfms (selectWdp msleft) ∧ halfms (selectWdp msleft) ≤ 4096 ∧
      2 * halfms (selectWdp msleft) ≤ msleft ∧
      halfms (selectWdp msleft) = 8 * 2 ^ selectWdp msleft := by
  obtain ⟨-, h2, h3, -⟩ := wdpLoop_bounds msleft 0 h (by omega)
  unfold selectWdp
  generalize wdpLoop msleft 0 = w at h2 h3
  simp only [Nat.sub_zero] at h3
  have hp : 2 ^ w ≤ 2 ^ 9 := Nat.pow_le_pow_right (by omega) h2
  have hpos : 0 < 2 ^ w := Nat.pos_pow_of_pos _ (by omega)
  have hv : halfms w = 8 * 2 ^ w := by
    unfold halfms toWord
    rw [Nat.shiftLeft_eq]
    apply Nat.mod_eq_of_lt
    omega
  rw [hv]
  omega

/-- One sleep cycle as the loop performed it (a record kept for the proofs, not a
variable of the program). -/
structure Cycle where
  /-- The remaining budget `msleft` when the code was selected. -/
  msleft : Nat
  /-- The interval code `wdp` passed to `watchdogInterrupts`. -/
  wdp : Nat
  /-- The value of `watchdogCounter` read by the test of line 95. -/
  counter : Nat
  deriving DecidableEq, Repr

/-- The values of the locals `ok` and `msleft` and the machine state when the
`while` loop is left, with the cycles performed. -/
structure LoopResult where
  ok : Nat
  msleft : Nat
  st : State
  cycles : List Cycle
  deriving DecidableEq, Repr

/-- Lines 88 to 91: `watchdogCounter = 0; watchdogInterrupts(wdp); powerDown();
watchdogInterrupts(-1);`, with `events` watchdog events during the halt. -/
def sleepCycle (wdp events : Nat) (st : State) : State :=
  let st := { st with watchdogCounter := 0, trace := st.trace ++ [Op.counterReset] }
  let st := watchdogInterrupts (wdp : Int) st
  let st := powerDown events st
  watchdogInterrupts (-1) st

/-- The `while (msleft >= 16)` loop of `loseSomeTime`, lines 65 to 100, started
with the current values of `ok` and `msleft`.  `env 0` is the number of watchdog
events during the next `powerDown`, `env 1` during the one after, and so on. -/
def whileLoop (env : Nat → Nat) (ok msleft : Nat) (st : State) : LoopResult :=
  if h : 16 ≤ msleft then
    let wdp := selectWdp msleft
    let st := sleepCycle wdp (env 0) st
    let msleft1 := subWord msleft (halfms wdp)
    if st.watchdogCounter = 0 then
      { ok := 0, msleft := msleft1, st := st,
        cycles := [Cycle.mk msleft wdp st.watchdogCounter] }
    else
      let r := whileLoop (fun k => env (k + 1)) ok (subWord msleft1 (halfms wdp)) st
      { r with cycles := Cycle.mk msleft wdp st.watchdogCounter :: r.cycles }
  else
    { ok := ok, msleft := msleft, st := st, cycles := [] }
termination_by msleft
decreasing_by
  obtain ⟨h1, h2, h3, -⟩ := halfms_selectWdp msleft h
  simp only [subWord, toWord]
  omega

/-- The outcome of a call: the returned `byte`, the machine state on return, and
for the proofs the final value of the local `msleft` and the cycles performed. -/
structure Result where
  ret : Nat
  st : State
  msleft : Nat
  cycles : List Cycle
  deriving DecidableEq, Repr

/-- `Sleepy::loseSomeTime (word msecs)`: `byte ok = 1; word msleft = msecs;`, the
loop, then `timer0_millis += msecs - msleft;` (the difference is a 16 bit
`word`, the sum a 32 bit `unsigned long`) and `return ok;`. -/
def loseSomeTime (env : Nat → Nat) (msecs : Nat) (st : State) : Result :=
  let r := whileLoop env 1 msecs st
  let st := r.st.write .timer0_millis (toULong (r.st.timer0_millis + subWord msecs r.msleft))
  { ret := r.ok, st := st, msleft := r.msleft, cycles := r.cycles }

/-- The successive values of the local `msleft`: at the selection of each cycle
performed, and last the value with which the loop is left. -/
def budgets (cycles : List Cycle) (final : Nat) : List Nat :=
  cycles.map Cycle.msleft ++ [final]

/-- A machine state for concrete runs: counter and clock at 0, interrupts
enabled, registers cleared, empty logs. -/
def idleState : State :=
  { watchdogCounter := 0, timer0_millis := 0, I := true, MCUSR := 0, WDTCSR := 0,
    MCUCR := 0, trace := [], writes := [] }

/-- The logged writes to the millisecond clock. -/
def clockWrites (st : State) : List Write :=
  st.writes.filter (fun w => w.reg = Reg.timer0_millis)

/-- The idle state with the global interrupt flag cleared. -/
def maskedState : State := { idleState with I := false }

/-- The amount the call adds to the millisecond clock: `msecs - msleft` as a
`word`. -/
def elapsed (env : Nat → Nat) (msecs : Nat) (st : State) : Nat :=
  subWord msecs (loseSomeTime env msecs st).msleft

/-- The budget charged for a cycle, as the specification words the accounting:
half the nominal interval, `8 * 2 ^ wdp`, when the counter was still 0 at the
wake, the full nominal interval `16 * 2 ^ wdp` when the timer had fired. -/
def credit (c : Cycle) : Nat :=
  if c.counter = 0 then 8 * 2 ^ c.wdp else 16 * 2 ^ c.wdp

/-- The calls of one cycle, lines 88 to 91: counter reset, arming with the code of
the cycle, halt, disarming. -/
def cycleOps (c : Cycle) : List Op :=
  [Op.counterReset, Op.watchdogInterrupts (c.wdp : Int), Op.powerDown,
   Op.watchdogInterrupts (-1)]

/-- The calls of a sequence of cycles: one block per cycle, in order. -/
def cyclesOps : List Cycle → List Op
  | [] => []
  | c :: cs => cycleOps c ++ cyclesOps cs

/-! ## Basic facts about the hardware operations -/

theorem sleep_cpu_eq (n : Nat) (st : State) (h : st.watchdogCounter < 256) :
    sleep_cpu n st = { st with watchdogCounter := toByte (st.watchdogCounter + n) } := by
  unfold sleep_cpu
  induction n generalizing st with
  | zero =>
    simp only [Function.iterate_zero, id_eq, Nat.add_zero, toByte]
    rw [Nat.mod_eq_of_lt h]
  | succ n ih =>
    rw [Function.iterate_succ_apply, ih]
    · simp only [watchdogEvent, toByte]
      congr 1
      omega
    · simp only [watchdogEvent, toByte]
      omega

theorem watchdogInterrupts_I (mode : Int) (st : State) :
    (watchdogInterrupts mode st).I = true := by
  simp [watchdogInterrupts, ATOMIC_BLOCK]

theorem watchdogInterrupts_watchdogCounter (mode : Int) (st : State) :
    (watchdogInterrupts mode st).watchdogCounter = st.watchdogCounter := by
  simp [watchdogInterrupts, ATOMIC_BLOCK, watchdogTimedSequence, State.write]

theorem watchdogInterrupts_timer0_millis (mode : Int) (st : State) :
    (watchdogInterrupts mode st).timer0_millis = st.timer0_millis := by
  simp [watchdogInterrupts, ATOMIC_BLOCK, watchdogTimedSequence, State.write]

theorem watchdogInterrupts_trace (mode : Int) (st : State) :
    (watchdogInterrupts mode st).trace = st.trace ++ [Op.watchdogInterrupts mode] := by
  simp [watchdogInterrupts, ATOMIC_BLOCK, watchdogTimedSequence, State.write]

theorem watchdogInterrupts_WDTCSR (mode : Int) (st : State) :
    (watchdogInterrupts mode st).WDTCSR = wdtcsr mode := by
  simp [watchdogInterrupts, ATOMIC_BLOCK, watchdogTimedSequence, State.write]

theorem watchdogInterrupts_writes (mode : Int) (st : State) :
    (watchdogInterrupts mode st).writes = st.writes ++
      [Write.mk .MCUSR (toByte (st.MCUSR &&& (65535 ^^^ (1 <<< WDRF)))) st.I,
       Write.mk .WDTCSR (toByte (st.WDTCSR ||| ((1 <<< WDCE) ||| (1 <<< WDE)))) false,
       Write.mk .WDTCSR (wdtcsr mode) false] := by
  simp [watchdogInterrupts, ATOMIC_BLOCK, watchdogTimedSequence, State.write]

theorem powerDown_eq (events : Nat) (st : State) (h : st.watchdogCounter < 256) :
    powerDown events st =
      { st with
        watchdogCounter := toByte (st.watchdogCounter + events)
        I := true
        MCUCR := toByte ((toByte (st.MCUCR ||| bit BODSE ||| bit BODS) &&&
          (4294967295 ^^^ bit BODSE)) ||| bit BODS)
        trace := st.trace ++ [Op.powerDown]
        writes := st.writes ++
          [Write.mk .MCUCR (toByte (st.MCUCR ||| bit BODSE ||| bit BODS)) false,
           Write.mk .MCUCR (toByte ((toByte (st.MCUCR ||| bit BODSE ||| bit BODS) &&&
              (4294967295 ^^^ bit BODSE)) ||| bit BODS)) false] } := by
  unfold powerDown
  rw [sleep_cpu_eq]
  · simp [ATOMIC_BLOCK, bodTimedSequence, State.write]
  · simpa [ATOMIC_BLOCK, bodTimedSequence, State.write] using h

theorem sleepCycle_watchdogCounter (wdp events : Nat) (st : State) :
    (sleepCycle wdp events st).watchdogCounter = toByte events := by
  unfold sleepCycle
  simp only [watchdogInterrupts_watchdogCounter]
  rw [powerDown_eq _ _ (by simp [watchdogInterrupts_watchdogCounter])]
  simp [watchdogInterrupts_watchdogCounter]

theorem sleepCycle_timer0_millis (wdp events : Nat) (st : State) :
    (sleepCycle wdp events st).timer0_millis = st.timer0_millis := by
  unfold sleepCycle
  simp only [watchdogInterrupts_timer0_millis]
  rw [powerDown_eq _ _ (by simp [watchdogInterrupts_watchdogCounter])]
  simp [watchdogInterrupts_timer0_millis]

theorem sleepCycle_I (wdp events : Nat) (st : State) :
    (sleepCycle wdp events st).I = true := by
  unfold sleepCycle
  exact watchdogInterrupts_I _ _

theorem sleepCycle_trace (wdp events : Nat) (st : State) :
    (sleepCycle wdp events st).trace = st.trace ++
      [Op.counterReset, Op.watchdogInterrupts (wdp : Int), Op.powerDown,
       Op.watchdogInterrupts (-1)] := by
  unfold sleepCycle
  simp only [watchdogInterrupts_trace]
  rw [powerDown_eq _ _ (by simp [watchdogInterrupts_watchdogCounter])]
  simp [watchdogInterrupts_trace]

/-! ## Unfolding the loop -/

theorem subWord_eq (m h : Nat) (hle : h ≤ m) (hm : m < 65536) : subWord m h = m - h := by
  unfold subWord toWord
  omega

theorem whileLoop_exit (env : Nat → Nat) (ok msleft : Nat) (st : State) (h : msleft < 16) :
    whileLoop env ok msleft st = { ok := ok, msleft := msleft, st := st, cycles := [] } := by
  rw [whileLoop]
  simp [Nat.not_le.mpr h]

theorem whileLoop_irq (env : Nat → Nat) (ok msleft : Nat) (st : State) (h : 16 ≤ msleft)
    (hc : toByte (env 0) = 0) :
    whileLoop env ok msleft st =
      { ok := 0, msleft := subWord msleft (halfms (selectWdp msleft)),
        st := sleepCycle (selectWdp msleft) (env 0) st,
        cycles := [Cycle.mk msleft (selectWdp msleft) 0] } := by
  rw [whileLoop]
  simp [h, sleepCycle_watchdogCounter, hc]

theorem whileLoop_wdt (env : Nat → Nat) (ok msleft : Nat) (st : State) (h : 16 ≤ msleft)
    (hc : toByte (env 0) ≠ 0) :
    whileLoop env ok msleft st =
      { whileLoop (fun k => env (k + 1)) ok
          (subWord (subWord msleft (halfms (selectWdp msleft))) (halfms (selectWdp msleft)))
          (sleepCycle (selectWdp msleft) (env 0) st) with
        cycles := Cycle.mk msleft (selectWdp msleft) (toByte (env 0)) ::
          (whileLoop (fun k => env (k + 1)) ok
            (subWord (subWord msleft (halfms (selectWdp msleft))) (halfms (selectWdp msleft)))
            (sleepCycle (selectWdp msleft) (env 0) st)).cycles } := by
  rw [whileLoop]
  simp [h, sleepCycle_watchdogCounter, hc]

/-- Induction along the iterations of the loop, for a budget that fits a `word`.
In the step case the budget left after a timer-woken cycle is the budget
before it minus the nominal interval `16 * 2 ^ wdp`, without wrap-around. -/
theorem whileLoop_induction
    (P : (Nat → Nat) → Nat → Nat → State → LoopResult → Prop)
    (hexit : ∀ env ok msleft st, msleft < 16 →
      P env ok msleft st { ok := ok, msleft := msleft, st := st, cycles := [] })
    (hirq : ∀ env ok msleft st, 16 ≤ msleft → msleft < 65536 → toByte (env 0) = 0 →
      P env ok msleft st
        { ok := 0, msleft := msleft - 8 * 2 ^ selectWdp msleft,
          st := sleepCycle (selectWdp msleft) (env 0) st,
          cycles := [Cycle.mk msleft (selectWdp msleft) 0] })
    (hwdt : ∀ env ok msleft st, 16 ≤ msleft → msleft < 65536 → toByte (env 0) ≠ 0 →
      ∀ r : LoopResult,
        r = whileLoop (fun k => env (k + 1)) ok (msleft - 16 * 2 ^ selectWdp msleft)
          (sleepCycle (selectWdp msleft) (env 0) st) →
        P (fun k => env (k + 1)) ok (msleft - 16 * 2 ^ selectWdp msleft)
          (sleepCycle (selectWdp msleft) (env 0) st) r →
        P env ok msleft st
          { r with cycles := Cycle.mk msleft (selectWdp msleft) (toByte (env 0)) :: r.cycles })
    (env : Nat → Nat) (ok msleft : Nat) (st : State) (hm : msleft < 65536) :
    P env ok msleft st (whileLoop env ok msleft st) := by
  induction msleft using Nat.strong_induction_on generalizing env st with
  | _ msleft ih =>
    by_cases h : 16 ≤ msleft
    · obtain ⟨h1, h2, h3, h4⟩ := halfms_selectWdp msleft h
      have hs1 : subWord msleft (halfms (selectWdp msleft)) =
          msleft - 8 * 2 ^ selectWdp msleft := by
        rw [subWord_eq _ _ (by omega) hm, h4]
      have hs2 : subWord (subWord msleft (halfms (selectWdp msleft)))
          (halfms (selectWdp msleft)) = msleft - 16 * 2 ^ selectWdp msleft := by
        rw [hs1, subWord_eq _ _ (by omega) (by omega), h4]
        omega
      by_cases hc : toByte (env 0) = 0
      · rw [whileLoop_irq env ok msleft st h hc, hs1]
        exact hirq env ok msleft st h hm hc
      · rw [whileLoop_wdt env ok msleft st h hc, hs2]
        exact hwdt env ok msleft st h hm hc _ rfl
          (ih _ (by omega) _ _ (by omega))
    · rw [whileLoop_exit env ok msleft st (by omega)]
      exact hexit env ok msleft st (by omega)

/-! ## General facts about the loop -/

/-- Verdict and wake pattern: the loop leaves `ok` untouched while the counter is
non-zero at every wake, and sets it to 0 at the first wake with the counter
at 0, which ends the loop. -/
theorem whileLoop_verdict (env : Nat → Nat) (ok msleft : Nat) (st : State)
    (hm : msleft < 65536) :
    (((whileLoop env ok msleft st).ok = ok ∧
        ∀ c ∈ (whileLoop env ok msleft st).cycles, c.counter ≠ 0) ∨
      ((whileLoop env ok msleft st).ok = 0 ∧
        ∃ c ∈ (whileLoop env ok msleft st).cycles, c.counter = 0)) ∧
    (∀ i (hi : i < (whileLoop env ok msleft st).cycles.length),
      ((whileLoop env ok msleft st).cycles[i]).counter = 0 →
        i + 1 = (whileLoop env ok msleft st).cycles.length) ∧
    (∀ i (hi : i < (whileLoop env ok msleft st).cycles.length),
      ((whileLoop env ok msleft st).cycles[i]).counter = toByte (env i)) := by
  refine whileLoop_induction
    (fun env ok _ _ r =>
      ((r.ok = ok ∧ ∀ c ∈ r.cycles, c.counter ≠ 0) ∨
        (r.ok = 0 ∧ ∃ c ∈ r.cycles, c.counter = 0)) ∧
      (∀ i (hi : i < r.cycles.length), (r.cycles[i]).counter = 0 →
        i + 1 = r.cycles.length) ∧
      (∀ i (hi : i < r.cycles.length), (r.cycles[i]).counter = toByte (env i)))
    ?_ ?_ ?_ env ok msleft st hm
  · intro env ok msleft st _
    simp
  · intro env ok msleft st _ _ hc
    refine ⟨Or.inr ⟨rfl, by simp⟩, ?_, ?_⟩
    · intro i hi _
      simp only [List.length_singleton] at hi ⊢
      omega
    · intro i hi
      simp only [List.length_singleton] at hi
      have : i = 0 := by omega
      subst this
      simp [hc]
  · intro env ok msleft st _ _ hc r _ ih
    obtain ⟨ih1, ih2, ih3⟩ := ih
    refine ⟨?_, ?_, ?_⟩
    · rcases ih1 with ⟨h1, h2⟩ | ⟨h1, c, hcm, hc0⟩
      · left
        refine ⟨h1, ?_⟩
        intro c hcm
        rcases List.mem_cons.mp hcm with rfl | hcm
        · exact hc
        · exact h2 c hcm
      · right
        exact ⟨h1, c, List.mem_cons_of_mem _ hcm, hc0⟩
    · intro i hi h0
      cases i with
      | zero => exact absurd h0 hc
      | succ j =>
        simp only [List.length_cons] at hi ⊢
        have := ih2 j (by omega) (by simpa using h0)
        omega
    · intro i hi
      cases i with
      | zero => rfl
      | succ j =>
        simp only [List.length_cons] at hi
        simpa using ih3 j (by omega)

/-- Budget accounting: the successive values of `msleft` start at the initial
budget, drop by at least 8 at every step, never exceed the initial budget, each
cycle runs on a budget of at least 16 with the code selected for it, and a
run with the counter non-zero at every wake ends with less than 16 left. -/
theorem whileLoop_budget (env : Nat → Nat) (ok msleft : Nat) (st : State)
    (hm : msleft < 65536) :
    (budgets (whileLoop env ok msleft st).cycles (whileLoop env ok msleft st).msleft).head? =
        some msleft ∧
    List.Chain' (fun a b => b + 8 ≤ a)
      (budgets (whileLoop env ok msleft st).cycles (whileLoop env ok msleft st).msleft) ∧
    (whileLoop env ok msleft st).msleft ≤ msleft ∧
    (∀ c ∈ (whileLoop env ok msleft st).cycles,
      16 ≤ c.msleft ∧ c.msleft ≤ msleft ∧ c.wdp = selectWdp c.msleft) ∧
    ((∀ c ∈ (whileLoop env ok msleft st).cycles, c.counter ≠ 0) →
      (whileLoop env ok msleft st).ok = ok ∧ (whileLoop env ok msleft st).msleft < 16) := by
  refine whileLoop_induction
    (fun _ ok msleft _ r =>
      (budgets r.cycles r.msleft).head? = some msleft ∧
      List.Chain' (fun a b => b + 8 ≤ a) (budgets r.cycles r.msleft) ∧
      r.msleft ≤ msleft ∧
      (∀ c ∈ r.cycles, 16 ≤ c.msleft ∧ c.msleft ≤ msleft ∧ c.wdp = selectWdp c.msleft) ∧
      ((∀ c ∈ r.cycles, c.counter ≠ 0) → r.ok = ok ∧ r.msleft < 16))
    ?_ ?_ ?_ env ok msleft st hm
  · intro env ok msleft st h
    simp [budgets, h]
  · intro env ok msleft st h16 _ _
    obtain ⟨h1, h2, h3, h4⟩ := halfms_selectWdp msleft h16
    refine ⟨by simp [budgets], ?_, Nat.sub_le _ _, ?_, ?_⟩
    · simp only [budgets, List.map_cons, List.map_nil, List.singleton_append,
        List.chain'_cons, List.chain'_singleton, and_true]
      omega
    · intro c hcm
      rcases List.mem_singleton.mp hcm with rfl
      exact ⟨h16, le_refl _, rfl⟩
    · intro hall
      exact absurd rfl (hall _ (List.mem_singleton.mpr rfl))
  · intro env ok msleft st h16 _ _ r _ ih
    obtain ⟨ih1, ih2, ih3, ih4, ih5⟩ := ih
    obtain ⟨h1, h2, h3, h4⟩ := halfms_selectWdp msleft h16
    refine ⟨by simp [budgets], ?_, le_trans ih3 (Nat.sub_le _ _), ?_, ?_⟩
    · have hb : budgets (Cycle.mk msleft (selectWdp msleft) (toByte (env 0)) :: r.cycles)
          r.msleft = msleft :: budgets r.cycles r.msleft := by
        simp [budgets]
      show List.Chain' _ (budgets (_ :: r.cycles) r.msleft)
      rw [hb, List.chain'_cons']
      refine ⟨?_, ih2⟩
      intro y hy
      rw [ih1] at hy
      cases hy
      omega
    · intro c hcm
      rcases List.mem_cons.mp hcm with rfl | hcm
      · exact ⟨h16, le_refl _, rfl⟩
      · obtain ⟨a, b, d⟩ := ih4 c hcm
        exact ⟨a, by omega, d⟩
    · intro hall
      exact ih5 (fun c hcm => hall c (List.mem_cons_of_mem _ hcm))

theorem watchdogInterrupts_clockWrites (mode : Int) (st : State) :
    clockWrites (watchdogInterrupts mode st) = clockWrites st := by
  simp [clockWrites, watchdogInterrupts_writes, List.filter_append]

theorem powerDown_clockWrites (events : Nat) (st : State) (h : st.watchdogCounter < 256) :
    clockWrites (powerDown events st) = clockWrites st := by
  rw [powerDown_eq events st h]
  simp [clockWrites, List.filter_append]

theorem sleepCycle_clockWrites (wdp events : Nat) (st : State) :
    clockWrites (sleepCycle wdp events st) = clockWrites st := by
  unfold sleepCycle
  rw [watchdogInterrupts_clockWrites, powerDown_clockWrites _ _
    (by simp [watchdogInterrupts_watchdogCounter]), watchdogInterrupts_clockWrites]
  simp [clockWrites]

/-- The loop itself never touches the millisecond clock. -/
theorem whileLoop_clock (env : Nat → Nat) (ok msleft : Nat) (st : State)
    (hm : msleft < 65536) :
    (whileLoop env ok msleft st).st.timer0_millis = st.timer0_millis ∧
      clockWrites (whileLoop env ok msleft st).st = clockWrites st := by
  refine whileLoop_induction
    (fun _ _ _ st r => r.st.timer0_millis = st.timer0_millis ∧
      clockWrites r.st = clockWrites st)
    ?_ ?_ ?_ env ok msleft st hm
  · intro env ok msleft st _
    exact ⟨rfl, rfl⟩
  · intro env ok msleft st _ _ _
    exact ⟨sleepCycle_timer0_millis _ _ _, sleepCycle_clockWrites _ _ _⟩
  · intro env ok msleft st _ _ _ r _ ih
    exact ⟨ih.1.trans (sleepCycle_timer0_millis _ _ _),
      ih.2.trans (sleepCycle_clockWrites _ _ _)⟩

theorem loseSomeTime_ret (env : Nat → Nat) (msecs : Nat) (st : State) :
    (loseSomeTime env msecs st).ret = (whileLoop env 1 msecs st).ok := rfl

theorem loseSomeTime_msleft (env : Nat → Nat) (msecs : Nat) (st : State) :
    (loseSomeTime env msecs st).msleft = (whileLoop env 1 msecs st).msleft := rfl

theorem loseSomeTime_cycles (env : Nat → Nat) (msecs : Nat) (st : State) :
    (loseSomeTime env msecs st).cycles = (whileLoop env 1 msecs st).cycles := rfl

theorem loseSomeTime_timer0_millis (env : Nat → Nat) (msecs : Nat) (st : State) :
    (loseSomeTime env msecs st).st.timer0_millis =
      toULong ((whileLoop env 1 msecs st).st.timer0_millis +
        subWord msecs (whileLoop env 1 msecs st).msleft) := by
  simp [loseSomeTime, State.write]

theorem loseSomeTime_trace (env : Nat → Nat) (msecs : Nat) (st : State) :
    (loseSomeTime env msecs st).st.trace = (whileLoop env 1 msecs st).st.trace := by
  simp [loseSomeTime, State.write]

theorem loseSomeTime_watchdogCounter (env : Nat → Nat) (msecs : Nat) (st : State) :
    (loseSomeTime env msecs st).st.watchdogCounter =
      (whileLoop env 1 msecs st).st.watchdogCounter := by
  simp [loseSomeTime, State.write]

theorem loseSomeTime_writes (env : Nat → Nat) (msecs : Nat) (st : State) :
    (loseSomeTime env msecs st).st.writes = (whileLoop env 1 msecs st).st.writes ++
      [Write.mk .timer0_millis (toULong ((whileLoop env 1 msecs st).st.timer0_millis +
        subWord msecs (whileLoop env 1 msecs st).msleft)) (whileLoop env 1 msecs st).st.I] := by
  simp [loseSomeTime, State.write]

theorem elapsed_eq (env : Nat → Nat) (msecs : Nat) (st : State) (hm : msecs < 65536) :
    elapsed env msecs st = msecs - (whileLoop env 1 msecs st).msleft := by
  unfold elapsed
  rw [loseSomeTime_msleft]
  exact subWord_eq _ _ (whileLoop_budget env 1 msecs st hm).2.2.1 hm

/-! ## The claims -/

/-- C1: for every requested duration `msecs < 16`, `loseSomeTime` performs no
sleep cycle (the call log is unchanged, so no counter reset, no
`watchdogInterrupts` and no `powerDown`; the counter keeps its value; the only
logged write is the one to the clock), returns 1, and adds exactly 0 to the
millisecond clock. -/
theorem C1_short_request_is_noop (env : Nat → Nat) (msecs : Nat) (st : State)
    (h : msecs < 16) :
    (loseSomeTime env msecs st).cycles = [] ∧
    (loseSomeTime env msecs st).st.trace = st.trace ∧
    (loseSomeTime env msecs st).st.watchdogCounter = st.watchdogCounter ∧
    (loseSomeTime env msecs st).st.writes =
      st.writes ++ [Write.mk .timer0_millis (toULong (st.timer0_millis + 0)) st.I] ∧
    (loseSomeTime env msecs st).ret = 1 ∧
    elapsed env msecs st = 0 ∧
    (loseSomeTime env msecs st).st.timer0_millis = toULong (st.timer0_millis + 0) ∧
    (st.timer0_millis < 4294967296 →
      (loseSomeTime env msecs st).st.timer0_millis = st.timer0_millis) := by
  have hs : subWord msecs msecs = 0 := by
    unfold subWord toWord
    omega
  have he : elapsed env msecs st = 0 := by
    unfold elapsed
    rw [loseSomeTime_msleft, whileLoop_exit env 1 msecs st h]
    exact hs
  have ht : (loseSomeTime env msecs st).st.timer0_millis = toULong (st.timer0_millis + 0) := by
    rw [loseSomeTime_timer0_millis, whileLoop_exit env 1 msecs st h]
    simp only [hs]
  refine ⟨?_, ?_, ?_, ?_, ?_, he, ht, ?_⟩
  · rw [loseSomeTime_cycles, whileLoop_exit env 1 msecs st h]
  · rw [loseSomeTime_trace, whileLoop_exit env 1 msecs st h]
  · rw [loseSomeTime_watchdogCounter, whileLoop_exit env 1 msecs st h]
  · rw [loseSomeTime_writes, whileLoop_exit env 1 msecs st h]
    simp only [hs]
  · rw [loseSomeTime_ret, whileLoop_exit env 1 msecs st h]
  · intro hlt
    rw [ht]
    simp only [toULong, Nat.add_zero]
    exact Nat.mod_eq_of_lt hlt

/-- Witness of C1 at `msecs = 15`. -/
theorem C1_short_request_is_noop_witness :
    (loseSomeTime (fun _ => 1) 15 idleState).cycles = [] ∧
    (loseSomeTime (fun _ => 1) 15 idleState).st.trace = idleState.trace ∧
    (loseSomeTime (fun _ => 1) 15 idleState).ret = 1 ∧
    elapsed (fun _ => 1) 15 idleState = 0 :=
  have h := C1_short_request_is_noop (fun _ => 1) 15 idleState (by decide)
  ⟨h.1, h.2.1, h.2.2.2.2.1, h.2.2.2.2.2.1⟩

/-- C2: for every 16 bit `msecs` and every wake pattern, `loseSomeTime` returns 1
exactly when every cycle it performed was woken with `watchdogCounter`
non-zero, and 0 exactly when some performed cycle was woken with the counter
at 0; such a cycle is the last one performed.  The counter read in cycle `i` is
the byte value of the number of watchdog events during that cycle. -/
theorem C2_verdict_iff_all_timer_woken (env : Nat → Nat) (msecs : Nat) (st : State)
    (hm : msecs < 65536) :
    ((loseSomeTime env msecs st).ret = 1 ↔
      ∀ c ∈ (loseSomeTime env msecs st).cycles, c.counter ≠ 0) ∧
    ((loseSomeTime env msecs st).ret = 0 ↔
      ∃ c ∈ (loseSomeTime env msecs st).cycles, c.counter = 0) ∧
    (∀ i (hi : i < (loseSomeTime env msecs st).cycles.length),
      ((loseSomeTime env msecs st).cycles[i]).counter = 0 →
        i + 1 = (loseSomeTime env msecs st).cycles.length) ∧
    (∀ i (hi : i < (loseSomeTime env msecs st).cycles.length),
      ((loseSomeTime env msecs st).cycles[i]).counter = toByte (env i)) := by
  obtain ⟨h1, h2, h3⟩ := whileLoop_verdict env 1 msecs st hm
  simp only [loseSomeTime_ret, loseSomeTime_cycles]
  refine ⟨?_, ?_, h2, h3⟩
  · constructor
    · intro hret
      rcases h1 with ⟨_, hall⟩ | ⟨h0, _⟩
      · exact hall
      · omega
    · intro hall
      rcases h1 with ⟨hok, _⟩ | ⟨_, c, hcm, hc0⟩
      · exact hok
      · exact absurd hc0 (hall c hcm)
  · constructor
    · intro hret
      rcases h1 with ⟨hok, _⟩ | ⟨_, hex⟩
      · omega
      · exact hex
    · rintro ⟨c, hcm, hc0⟩
      rcases h1 with ⟨_, hall⟩ | ⟨h0, _⟩
      · exact absurd hc0 (hall c hcm)
      · exact h0

/-- Witness of C2 at `msecs = 100` with the first wake foreign. -/
theorem C2_verdict_iff_all_timer_woken_witness :
    (100 : Nat) < 65536 ∧
    ((loseSomeTime (fun _ => 0) 100 idleState).ret = 0 ↔
      ∃ c ∈ (loseSomeTime (fun _ => 0) 100 idleState).cycles, c.counter = 0) :=
  ⟨by decide, (C2_verdict_iff_all_timer_woken (fun _ => 0) 100 idleState (by decide)).2.1⟩

/-- With the counter non-zero at every wake of the pattern, every recorded cycle
has a non-zero counter. -/
theorem cycles_counter_ne_zero (env : Nat → Nat) (msecs : Nat) (st : State)
    (hm : msecs < 65536) (henv : ∀ k, toByte (env k) ≠ 0) :
    ∀ c ∈ (loseSomeTime env msecs st).cycles, c.counter ≠ 0 := by
  intro c hcm
  obtain ⟨i, hi, rfl⟩ := List.getElem_of_mem hcm
  rw [loseSomeTime_cycles] at hi
  have := (whileLoop_verdict env 1 msecs st hm).2.2 i hi
  simp only [loseSomeTime_cycles]
  rw [this]
  exact henv i

/-- C3: for every 16 bit `msecs` (in particular `msecs ≥ 16`), when the counter
is non-zero at every wake, `loseSomeTime` returns 1 and the amount added to the
clock lies between `msecs - 16` and `msecs`; every code chosen along the way
is at most 9 and has nominal interval `16 * 2 ^ code` at most the budget
remaining when it was selected. -/
theorem C3_all_timer_elapsed_bounds (env : Nat → Nat) (msecs : Nat) (st : State)
    (h16 : 16 ≤ msecs) (hm : msecs < 65536)
    (hall : ∀ c ∈ (loseSomeTime env msecs st).cycles, c.counter ≠ 0) :
    (loseSomeTime env msecs st).ret = 1 ∧
    msecs - 16 ≤ elapsed env msecs st ∧
    elapsed env msecs st ≤ msecs ∧
    (loseSomeTime env msecs st).st.timer0_millis =
      toULong (st.timer0_millis + elapsed env msecs st) ∧
    (∀ c ∈ (loseSomeTime env msecs st).cycles,
      c.wdp ≤ 9 ∧ 16 * 2 ^ c.wdp ≤ c.msleft) := by
  obtain ⟨-, -, hle, hcyc, hfin⟩ := whileLoop_budget env 1 msecs st hm
  obtain ⟨hok, hlt⟩ := hfin hall
  have he := elapsed_eq env msecs st hm
  refine ⟨hok, by omega, by omega, ?_, ?_⟩
  · rw [loseSomeTime_timer0_millis, (whileLoop_clock env 1 msecs st hm).1]
    rfl
  · intro c hcm
    obtain ⟨hc16, -, hw⟩ := hcyc c hcm
    obtain ⟨-, h2, h3, -⟩ := wdpLoop_bounds c.msleft 0 hc16 (by omega)
    rw [hw]
    exact ⟨h2, by simpa [selectWdp] using h3⟩

/-- Witness of C3 at `msecs = 100` and `msecs = 50` with one watchdog event in
every cycle: the amounts added to the clock lie in `[84, 100]` and `[34, 50]`. -/
theorem C3_all_timer_elapsed_bounds_witness :
    ((loseSomeTime (fun _ => 1) 100 idleState).ret = 1 ∧
      84 ≤ elapsed (fun _ => 1) 100 idleState ∧
      elapsed (fun _ => 1) 100 idleState ≤ 100) ∧
    ((loseSomeTime (fun _ => 1) 50 idleState).ret = 1 ∧
      34 ≤ elapsed (fun _ => 1) 50 idleState ∧
      elapsed (fun _ => 1) 50 idleState ≤ 50) :=
  have h100 := C3_all_timer_elapsed_bounds (fun _ => 1) 100 idleState (by decide) (by decide)
    (cycles_counter_ne_zero _ _ _ (by decide) (fun _ => by decide))
  have h50 := C3_all_timer_elapsed_bounds (fun _ => 1) 50 idleState (by decide) (by decide)
    (cycles_counter_ne_zero _ _ _ (by decide) (fun _ => by decide))
  ⟨⟨h100.1, h100.2.1, h100.2.2.1⟩, ⟨h50.1, h50.2.1, h50.2.2.1⟩⟩

/-- C4: for every 16 bit `msecs ≥ 16`, if the first cycle is woken with
`watchdogCounter` still 0, `loseSomeTime` performs exactly one iteration (with
the code selected for `msecs`), returns 0, and adds `8 * 2 ^ c` to the clock,
where `c` is the interval code selected for the original `msecs`. -/
theorem C4_foreign_first_wake (env : Nat → Nat) (msecs : Nat) (st : State)
    (h16 : 16 ≤ msecs) (hm : msecs < 65536) (hirq : toByte (env 0) = 0) :
    (loseSomeTime env msecs st).cycles = [Cycle.mk msecs (selectWdp msecs) 0] ∧
    (loseSomeTime env msecs st).cycles.length = 1 ∧
    (loseSomeTime env msecs st).st.trace = st.trace ++
      [Op.counterReset, Op.watchdogInterrupts (selectWdp msecs : Int), Op.powerDown,
       Op.watchdogInterrupts (-1)] ∧
    (loseSomeTime env msecs st).ret = 0 ∧
    elapsed env msecs st = 8 * 2 ^ selectWdp msecs ∧
    (loseSomeTime env msecs st).st.timer0_millis =
      toULong (st.timer0_millis + 8 * 2 ^ selectWdp msecs) := by
  obtain ⟨h1, h2, h3, h4⟩ := halfms_selectWdp msecs h16
  have hs : subWord msecs (halfms (selectWdp msecs)) = msecs - 8 * 2 ^ selectWdp msecs := by
    rw [subWord_eq _ _ (by omega) hm, h4]
  have he : subWord msecs (msecs - 8 * 2 ^ selectWdp msecs) = 8 * 2 ^ selectWdp msecs := by
    rw [subWord_eq _ _ (by omega) hm]
    omega
  refine ⟨?_, ?_, ?_, ?_, ?_, ?_⟩
  · rw [loseSomeTime_cycles, whileLoop_irq env 1 msecs st h16 hirq]
  · rw [loseSomeTime_cycles, whileLoop_irq env 1 msecs st h16 hirq]
    rfl
  · rw [loseSomeTime_trace, whileLoop_irq env 1 msecs st h16 hirq]
    exact sleepCycle_trace _ _ _
  · rw [loseSomeTime_ret, whileLoop_irq env 1 msecs st h16 hirq]
  · unfold elapsed
    rw [loseSomeTime_msleft, whileLoop_irq env 1 msecs st h16 hirq]
    simp only [hs, he]
  · rw [loseSomeTime_timer0_millis, whileLoop_irq env 1 msecs st h16 hirq]
    simp only [hs, he, sleepCycle_timer0_millis]

/-- Witness of C4 at `msecs = 100` with no watchdog event in the first cycle. -/
theorem C4_foreign_first_wake_witness :
    (loseSomeTime (fun _ => 0) 100 idleState).cycles.length = 1 ∧
    (loseSomeTime (fun _ => 0) 100 idleState).ret = 0 ∧
    elapsed (fun _ => 0) 100 idleState = 8 * 2 ^ selectWdp 100 :=
  have h := C4_foreign_first_wake (fun _ => 0) 100 idleState (by decide) (by decide)
    (by decide)
  ⟨h.2.1, h.2.2.2.1, h.2.2.2.2.1⟩

/-- The selection loop computes the successive-halving rule of the
specification, from any starting code below 9. -/
theorem wdpLoop_eq_specHalving (m wdp : Nat) (hw : wdp < 9) :
    wdpLoop m wdp = specHalving m wdp := by
  induction m using Nat.strong_induction_on generalizing wdp with
  | _ m ih =>
    rw [wdpLoop, specHalving]
    by_cases h32 : 32 ≤ m
    · by_cases h9 : 9 ≤ wdp + 1
      · have hw8 : wdp + 1 = 9 := by omega
        rw [specHalving]
        simp [h32, hw, hw8]
      · have hhalf : m >>> 1 = m / 2 := by
          simp [Nat.shiftRight_succ, Nat.shiftRight_zero]
        simp only [h32, h9, hw, if_true, if_false, and_self, hhalf]
        exact ih (m / 2) (by omega) (wdp + 1) (by omega)
    · simp [h32]

/-- C5: for every remaining budget `r ≥ 16` (in particular `16 ≤ r ≤ 65535`) the
code computed by the selection loop equals the result of the successive-halving
rule of the specification, equals `min 9 (floor (log2 (r / 16)))`, lies in
`[0, 9]`, satisfies `16 * 2 ^ wdp ≤ r`, and when `wdp < 9` also
`r < 32 * 2 ^ wdp`; it is the largest code in `[0, 9]` whose nominal interval
does not exceed `r`. -/
theorem C5_interval_code_selection (r : Nat) (h16 : 16 ≤ r) (hr : r ≤ 65535) :
    selectWdp r = specHalving r 0 ∧
    selectWdp r = min 9 (Nat.log 2 (r / 16)) ∧
    selectWdp r ≤ 9 ∧
    16 * 2 ^ selectWdp r ≤ r ∧
    (selectWdp r < 9 → r < 32 * 2 ^ selectWdp r) ∧
    (∀ c, c ≤ 9 → 16 * 2 ^ c ≤ r → c ≤ selectWdp r) := by
  obtain ⟨-, h2, h3, h4⟩ := wdpLoop_bounds r 0 h16 (by omega)
  simp only [Nat.sub_zero] at h3 h4
  refine ⟨wdpLoop_eq_specHalving r 0 (by omega), ?_, h2, h3, h4, ?_⟩
  · unfold selectWdp
    have hdiv : r / 16 ≠ 0 := by omega
    have hlow : 2 ^ wdpLoop r 0 ≤ r / 16 := by
      rw [Nat.le_div_iff_mul_le (by omega)]
      omega
    have hlog : wdpLoop r 0 ≤ Nat.log 2 (r / 16) :=
      (Nat.pow_le_iff_le_log (by omega) hdiv).mp hlow
    by_cases h9 : wdpLoop r 0 < 9
    · have hup : r / 16 < 2 ^ (wdpLoop r 0 + 1) := by
        rw [Nat.div_lt_iff_lt_mul (by omega), pow_succ]
        have := h4 h9
        omega
      have : Nat.log 2 (r / 16) = wdpLoop r 0 :=
        (Nat.log_eq_iff (Or.inr ⟨by omega, hdiv⟩)).mpr ⟨hlow, hup⟩
      rw [this]
      omega
    · omega
  · intro c hc9 hc
    unfold selectWdp
    by_cases h9 : wdpLoop r 0 < 9
    · by_contra hlt
      have hpow : 2 ^ (wdpLoop r 0 + 1) ≤ 2 ^ c :=
        Nat.pow_le_pow_right (by omega) (by omega)
      rw [pow_succ] at hpow
      have := h4 h9
      omega
    · omega

/-- Witness of C5 at `r = 100`: the code is 2 and `64 ≤ 100 < 128`. -/
theorem C5_interval_code_selection_witness :
    selectWdp 100 = specHalving 100 0 ∧ 16 * 2 ^ selectWdp 100 ≤ 100 ∧
      (selectWdp 100 < 9 → 100 < 32 * 2 ^ selectWdp 100) :=
  have h := C5_interval_code_selection 100 (by decide) (by decide)
  ⟨h.1, h.2.2.2.1, h.2.2.2.2.1⟩

/-- Every iteration costs at least 8 ms of budget. -/
theorem whileLoop_length (env : Nat → Nat) (ok msleft : Nat) (st : State)
    (hm : msleft < 65536) :
    8 * (whileLoop env ok msleft st).cycles.length + (whileLoop env ok msleft st).msleft ≤
      msleft := by
  refine whileLoop_induction
    (fun _ _ msleft _ r => 8 * r.cycles.length + r.msleft ≤ msleft)
    ?_ ?_ ?_ env ok msleft st hm
  · intro env ok msleft st _
    simp
  · intro env ok msleft st h16 _ _
    obtain ⟨h1, h2, h3, h4⟩ := halfms_selectWdp msleft h16
    simp only [List.length_singleton]
    omega
  · intro env ok msleft st h16 _ _ r _ ih
    obtain ⟨h1, h2, h3, h4⟩ := halfms_selectWdp msleft h16
    simp only [List.length_cons]
    omega

/-- C6: for every 16 bit `msecs` and every wake pattern the remaining budget
never underflows: in every cycle performed `8 << wdp` is at most 4096, so it
fits in 16 bits and `halfms` is its exact value, neither of the two subtractions `msleft -= halfms` wraps
around (each equals the exact difference), and the successive values of
`msleft` are non-increasing and never exceed `msecs`. -/
theorem C6_budget_never_underflows (env : Nat → Nat) (msecs : Nat) (st : State)
    (hm : msecs < 65536) :
    (∀ c ∈ (loseSomeTime env msecs st).cycles,
      8 <<< c.wdp ≤ 4096 ∧
      halfms c.wdp = 8 <<< c.wdp ∧
      halfms c.wdp ≤ c.msleft ∧
      subWord c.msleft (halfms c.wdp) = c.msleft - halfms c.wdp ∧
      halfms c.wdp ≤ subWord c.msleft (halfms c.wdp) ∧
      subWord (subWord c.msleft (halfms c.wdp)) (halfms c.wdp) =
        c.msleft - halfms c.wdp - halfms c.wdp) ∧
    List.Chain' (fun a b => b ≤ a)
      (budgets (loseSomeTime env msecs st).cycles (loseSomeTime env msecs st).msleft) ∧
    (∀ b ∈ budgets (loseSomeTime env msecs st).cycles (loseSomeTime env msecs st).msleft,
      b ≤ msecs) := by
  obtain ⟨-, hchain, hle, hcyc, -⟩ := whileLoop_budget env 1 msecs st hm
  simp only [loseSomeTime_cycles, loseSomeTime_msleft]
  refine ⟨?_, ?_, ?_⟩
  · intro c hcm
    obtain ⟨hc16, hcle, hw⟩ := hcyc c hcm
    obtain ⟨h1, h2, h3, h4⟩ := halfms_selectWdp c.msleft hc16
    rw [← hw] at h1 h2 h3 h4
    have hsh : 8 <<< c.wdp = 8 * 2 ^ c.wdp := Nat.shiftLeft_eq _ _
    have hs1 : subWord c.msleft (halfms c.wdp) = c.msleft - halfms c.wdp :=
      subWord_eq _ _ (by omega) (by omega)
    refine ⟨by omega, by omega, by omega, hs1, by omega, ?_⟩
    rw [hs1]
    exact subWord_eq _ _ (by omega) (by omega)
  · exact hchain.imp (fun {a b} hab => by omega)
  · intro b hb
    simp only [budgets, List.mem_append, List.mem_map, List.mem_singleton] at hb
    rcases hb with ⟨c, hcm, rfl⟩ | rfl
    · exact (hcyc c hcm).2.1
    · exact hle

/-- Witness of C6 at `msecs = 65535` with one watchdog event in every cycle. -/
theorem C6_budget_never_underflows_witness :
    (65535 : Nat) < 65536 ∧
    List.Chain' (fun a b => b ≤ a)
      (budgets (loseSomeTime (fun _ => 1) 65535 idleState).cycles
        (loseSomeTime (fun _ => 1) 65535 idleState).msleft) :=
  ⟨by decide, (C6_budget_never_underflows (fun _ => 1) 65535 idleState (by decide)).2.1⟩

/-- C7: for every 16 bit `msecs`, every wake pattern and every prior clock value,
after `loseSomeTime` the clock equals the prior value plus `msecs - msleft`
reduced modulo `2 ^ 32`; the amount added is the exact difference (no 16 bit
wrap), at most `msecs`; and the call writes the clock exactly once. -/
theorem C7_clock_additive_correction (env : Nat → Nat) (msecs : Nat) (st : State)
    (hm : msecs < 65536) :
    (loseSomeTime env msecs st).st.timer0_millis =
      (st.timer0_millis + (msecs - (loseSomeTime env msecs st).msleft)) % 2 ^ 32 ∧
    (loseSomeTime env msecs st).msleft ≤ msecs ∧
    elapsed env msecs st = msecs - (loseSomeTime env msecs st).msleft ∧
    elapsed env msecs st ≤ msecs ∧
    (∃ i, clockWrites (loseSomeTime env msecs st).st = clockWrites st ++
      [Write.mk .timer0_millis
        ((st.timer0_millis + (msecs - (loseSomeTime env msecs st).msleft)) % 2 ^ 32) i]) := by
  obtain ⟨-, -, hle, -, -⟩ := whileLoop_budget env 1 msecs st hm
  obtain ⟨hclk, hcw⟩ := whileLoop_clock env 1 msecs st hm
  have he := elapsed_eq env msecs st hm
  have hsub : subWord msecs (whileLoop env 1 msecs st).msleft =
      msecs - (whileLoop env 1 msecs st).msleft := subWord_eq _ _ hle hm
  simp only [loseSomeTime_msleft]
  refine ⟨?_, hle, he, by omega, ?_⟩
  · rw [loseSomeTime_timer0_millis, hclk, hsub]
    rfl
  · refine ⟨(whileLoop env 1 msecs st).st.I, ?_⟩
    unfold clockWrites at hcw ⊢
    rw [loseSomeTime_writes, List.filter_append, hcw, hclk, hsub]
    simp [toULong]

/-- Witness of C7 at `msecs = 100`, one watchdog event in every cycle. -/
theorem C7_clock_additive_correction_witness :
    (100 : Nat) < 65536 ∧
    (loseSomeTime (fun _ => 1) 100 idleState).st.timer0_millis =
      (idleState.timer0_millis +
        (100 - (loseSomeTime (fun _ => 1) 100 idleState).msleft)) % 2 ^ 32 ∧
    (loseSomeTime (fun _ => 1) 100 idleState).msleft ≤ 100 :=
  have h := C7_clock_additive_correction (fun _ => 1) 100 idleState (by decide)
  ⟨by decide, h.1, h.2.1⟩

/-- C8: for every 16 bit `msecs` and every wake pattern the loop terminates (the
embedding is a total function, defined by well-founded recursion on `msleft`)
and the call returns a verdict, 0 or 1: the successive values of `msleft`
drop by at least 8 at every iteration, so at most `msecs / 8` cycles are
performed, and a run that returns 1 has left the loop with `msleft < 16`. -/
theorem C8_loop_terminates (env : Nat → Nat) (msecs : Nat) (st : State)
    (hm : msecs < 65536) :
    ((loseSomeTime env msecs st).ret = 0 ∨ (loseSomeTime env msecs st).ret = 1) ∧
    List.Chain' (fun a b => b + 8 ≤ a)
      (budgets (loseSomeTime env msecs st).cycles (loseSomeTime env msecs st).msleft) ∧
    (loseSomeTime env msecs st).cycles.length ≤ msecs / 8 ∧
    ((loseSomeTime env msecs st).ret = 1 → (loseSomeTime env msecs st).msleft < 16) := by
  obtain ⟨-, hchain, -, -, hfin⟩ := whileLoop_budget env 1 msecs st hm
  obtain ⟨hv, -, -⟩ := whileLoop_verdict env 1 msecs st hm
  have hlen := whileLoop_length env 1 msecs st hm
  simp only [loseSomeTime_cycles, loseSomeTime_msleft, loseSomeTime_ret]
  refine ⟨?_, hchain, by omega, ?_⟩
  · rcases hv with ⟨h, -⟩ | ⟨h, -⟩
    · exact Or.inr h
    · exact Or.inl h
  · intro hret
    rcases hv with ⟨-, hall⟩ | ⟨h0, -⟩
    · exact (hfin hall).2
    · omega

/-- Witness of C8 at `msecs = 65535` with one watchdog event in every cycle. -/
theorem C8_loop_terminates_witness :
    (65535 : Nat) < 65536 ∧
    (loseSomeTime (fun _ => 1) 65535 idleState).cycles.length ≤ 65535 / 8 :=
  ⟨by decide, (C8_loop_terminates (fun _ => 1) 65535 idleState (by decide)).2.2.1⟩

/-- C9: the register value `wdtcsr` computed by `watchdogInterrupts (mode)` (with
`WDIE = 6`, `WDP3 = 5`, `WDE = 3`) is interrupt-only and encodes the code: for
every mode in 0..9 it has `WDIE` set and `WDE` clear, its bits 2..0 are the low
three bits of the mode and its `WDP3` bit is bit 3 of the mode, so 0..7 give
`0x40 | mode`, 8 gives `0x60` and 9 gives `0x61`; for mode -1 the value is 0,
with `WDIE` and `WDE` both clear.  It is the value left in `WDTCSR`. -/
theorem C9_wdtcsr_encoding :
    (WDIE = 6 ∧ WDP3 = 5 ∧ WDE = 3) ∧
    (∀ m : Fin 10,
      (wdtcsr (m.val : Int)).testBit WDIE = true ∧
      (wdtcsr (m.val : Int)).testBit WDE = false ∧
      wdtcsr (m.val : Int) % 8 = m.val % 8 ∧
      (wdtcsr (m.val : Int)).testBit WDP3 = m.val.testBit 3 ∧
      (m.val ≤ 7 → wdtcsr (m.val : Int) = 0x40 ||| m.val)) ∧
    wdtcsr 8 = 0x60 ∧ wdtcsr 9 = 0x61 ∧
    wdtcsr (-1) = 0 ∧
    (wdtcsr (-1)).testBit WDIE = false ∧ (wdtcsr (-1)).testBit WDE = false ∧
    (∀ (mode : Int) (st : State), (watchdogInterrupts mode st).WDTCSR = wdtcsr mode) := by
  refine ⟨by decide, by decide, by decide, by decide, by decide, by decide, by decide, ?_⟩
  exact watchdogInterrupts_WDTCSR

/-- The halt changes neither the interrupt flag nor the write log. -/
theorem sleep_cpu_frame (n : Nat) (st : State) :
    (sleep_cpu n st).I = st.I ∧ (sleep_cpu n st).writes = st.writes := by
  unfold sleep_cpu
  induction n generalizing st with
  | zero => exact ⟨rfl, rfl⟩
  | succ n ih =>
    rw [Function.iterate_succ_apply]
    exact ih (watchdogEvent st)

theorem powerDown_I (events : Nat) (st : State) : (powerDown events st).I = true := by
  unfold powerDown
  rw [(sleep_cpu_frame _ _).1]
  simp [ATOMIC_BLOCK]

/-- C10, as stated, fails: entered with the global interrupt flag cleared,
`watchdogInterrupts` and `powerDown` both return with the flag set, so the flag
after the critical section differs from its value before the call. -/
theorem C10_flag_not_restored_counterexample :
    maskedState.I = false ∧
    (watchdogInterrupts 0 maskedState).I ≠ maskedState.I ∧
    (powerDown 1 maskedState).I ≠ maskedState.I := by
  refine ⟨rfl, ?_, ?_⟩
  · rw [watchdogInterrupts_I]
    decide
  · rw [powerDown_I]
    decide

/-- C10, amended: `watchdogInterrupts` and `powerDown` perform their two timed
register writes with the global interrupt flag cleared, for either prior state
of the flag, and leave the flag set when the `ATOMIC_BLOCK (ATOMIC_FORCEON)`
exits; so the flag equals its prior value exactly when interrupts were enabled
before the call. -/
theorem C10_atomic_forceon (mode : Int) (events : Nat) (st : State) :
    (watchdogInterrupts mode st).I = true ∧
    (powerDown events st).I = true ∧
    (watchdogInterrupts mode st).writes = st.writes ++
      [Write.mk .MCUSR (toByte (st.MCUSR &&& (65535 ^^^ (1 <<< WDRF)))) st.I,
       Write.mk .WDTCSR (toByte (st.WDTCSR ||| ((1 <<< WDCE) ||| (1 <<< WDE)))) false,
       Write.mk .WDTCSR (wdtcsr mode) false] ∧
    (powerDown events st).writes = st.writes ++
      [Write.mk .MCUCR (toByte (st.MCUCR ||| bit BODSE ||| bit BODS)) false,
       Write.mk .MCUCR (toByte ((toByte (st.MCUCR ||| bit BODSE ||| bit BODS) &&&
          (4294967295 ^^^ bit BODSE)) ||| bit BODS)) false] ∧
    ((watchdogInterrupts mode st).I = st.I ↔ st.I = true) ∧
    ((powerDown events st).I = st.I ↔ st.I = true) := by
  have hp : (powerDown events st).I = true := powerDown_I events st
  refine ⟨watchdogInterrupts_I mode st, hp, watchdogInterrupts_writes mode st, ?_, ?_, ?_⟩
  · unfold powerDown
    rw [(sleep_cpu_frame _ _).2]
    simp [ATOMIC_BLOCK, bodTimedSequence, State.write]
  · rw [watchdogInterrupts_I]
    exact eq_comm
  · rw [hp]
    exact eq_comm

/-! ## Interval selection, counter and entry state -/

theorem selectWdp_bounds (r : Nat) (h16 : 16 ≤ r) :
    selectWdp r ≤ 9 ∧ 16 * 2 ^ selectWdp r ≤ r ∧
      (selectWdp r < 9 → r < 32 * 2 ^ selectWdp r) := by
  obtain ⟨-, h2, h3, h4⟩ := wdpLoop_bounds r 0 h16 (by omega)
  simp only [Nat.sub_zero] at h3 h4
  exact ⟨h2, h3, h4⟩

theorem selectWdp_largest (r c : Nat) (h16 : 16 ≤ r) (hc : c ≤ 9) (h : 16 * 2 ^ c ≤ r) :
    c ≤ selectWdp r := by
  obtain ⟨h2, h3, h4⟩ := selectWdp_bounds r h16
  by_cases h9 : selectWdp r < 9
  · by_contra hlt
    have hpow : 2 ^ (selectWdp r + 1) ≤ 2 ^ c :=
      Nat.pow_le_pow_right (by omega) (by omega)
    rw [pow_succ] at hpow
    have := h4 h9
    omega
  · omega

theorem selectWdp_lt (a w : Nat) (h16 : 16 ≤ a) (h : a < 16 * 2 ^ w) : selectWdp a < w := by
  obtain ⟨h2, h3, h4⟩ := selectWdp_bounds a h16
  by_contra hlt
  have hpow : 2 ^ w ≤ 2 ^ selectWdp a := Nat.pow_le_pow_right (by omega) (by omega)
  omega

/-- C11: interval selection is monotone: for all remaining budgets `r1 ≥ r2`, both
at least 32 and both below the code-9 saturation point 8192, the code selected
for `r1` is at least the code selected for `r2`. -/
theorem C11_selection_monotone (r1 r2 : Nat) (hge : r2 ≤ r1) (h1 : 32 ≤ r1) (h2 : 32 ≤ r2)
    (hs1 : r1 < 8192) (hs2 : r2 < 8192) :
    selectWdp r2 ≤ selectWdp r1 := by
  obtain ⟨hw, hlo, -⟩ := selectWdp_bounds r2 (by omega)
  exact selectWdp_largest r1 (selectWdp r2) (by omega) hw (by omega)

/-- Witness of C11 at `r1 = 1000`, `r2 = 100`. -/
theorem C11_selection_monotone_witness : selectWdp 100 ≤ selectWdp 1000 :=
  C11_selection_monotone 1000 100 (by decide) (by decide) (by decide) (by decide) (by decide)

theorem iterate_watchdogEvent_frame (n : Nat) (st : State) :
    Nat.iterate watchdogEvent n st =
      { st with watchdogCounter := (Nat.iterate watchdogEvent n st).watchdogCounter } := by
  induction n generalizing st with
  | zero => rfl
  | succ n ih =>
    rw [Function.iterate_succ_apply, ih (watchdogEvent st)]
    rfl

/-- C12: for every starting value of the byte `watchdogCounter`, 256 calls of
`watchdogEvent` give the starting state again (0 after 256 increments from 0),
while after `n` increments from 0 with `1 ≤ n ≤ 255` the counter is non-zero; the
counter is always a byte value, and the value tested by the classify step of a
cycle is the number of events of that cycle modulo 256. -/
theorem C12_counter_wraparound (st : State) (h : st.watchdogCounter < 256) :
    Nat.iterate watchdogEvent 256 st = st ∧
    (Nat.iterate watchdogEvent 256 { st with watchdogCounter := 0 }).watchdogCounter = 0 ∧
    (∀ n, 1 ≤ n → n ≤ 255 →
      (Nat.iterate watchdogEvent n { st with watchdogCounter := 0 }).watchdogCounter ≠ 0) ∧
    (∀ n, (Nat.iterate watchdogEvent n st).watchdogCounter < 256) ∧
    (∀ wdp n, ((sleepCycle wdp n st).watchdogCounter = 0 ↔ n % 256 = 0)) := by
  have hit : ∀ n (s : State), s.watchdogCounter < 256 →
      (Nat.iterate watchdogEvent n s).watchdogCounter = toByte (s.watchdogCounter + n) := by
    intro n s hs
    have := sleep_cpu_eq n s hs
    unfold sleep_cpu at this
    rw [this]
  refine ⟨?_, ?_, ?_, ?_, ?_⟩
  · rw [iterate_watchdogEvent_frame, hit 256 st h]
    have : toByte (st.watchdogCounter + 256) = st.watchdogCounter := by
      unfold toByte
      omega
    rw [this]
  · rw [hit 256 _ (by simp)]
    simp [toByte]
  · intro n h1 h255
    rw [hit n _ (by simp)]
    simp only [toByte, Nat.zero_add]
    omega
  · intro n
    rw [hit n st h]
    unfold toByte
    omega
  · intro wdp n
    rw [sleepCycle_watchdogCounter]
    rfl

/-- Witness of C12 from the idle state. -/
theorem C12_counter_wraparound_witness :
    idleState.watchdogCounter < 256 ∧ Nat.iterate watchdogEvent 256 idleState = idleState :=
  ⟨by decide, (C12_counter_wraparound idleState (by decide)).1⟩

theorem sleepCycle_entry_counter (wdp events c : Nat) (st : State) :
    sleepCycle wdp events { st with watchdogCounter := c } = sleepCycle wdp events st := rfl

theorem whileLoop_entry_counter (env : Nat → Nat) (ok msleft c : Nat) (st : State) :
    (whileLoop env ok msleft { st with watchdogCounter := c }).ok =
        (whileLoop env ok msleft st).ok ∧
    (whileLoop env ok msleft { st with watchdogCounter := c }).msleft =
        (whileLoop env ok msleft st).msleft ∧
    (whileLoop env ok msleft { st with watchdogCounter := c }).cycles =
        (whileLoop env ok msleft st).cycles ∧
    (whileLoop env ok msleft { st with watchdogCounter := c }).st.timer0_millis =
        (whileLoop env ok msleft st).st.timer0_millis ∧
    (whileLoop env ok msleft { st with watchdogCounter := c }).st.trace =
        (whileLoop env ok msleft st).st.trace := by
  by_cases h : 16 ≤ msleft
  · have heq : whileLoop env ok msleft { st with watchdogCounter := c } =
        whileLoop env ok msleft st := by
      by_cases hc : toByte (env 0) = 0
      · rw [whileLoop_irq _ _ _ _ h hc, whileLoop_irq _ _ _ _ h hc, sleepCycle_entry_counter]
      · rw [whileLoop_wdt _ _ _ _ h hc, whileLoop_wdt _ _ _ _ h hc, sleepCycle_entry_counter]
    rw [heq]
    exact ⟨rfl, rfl, rfl, rfl, rfl⟩
  · rw [whileLoop_exit _ _ _ _ (by omega), whileLoop_exit _ _ _ _ (by omega)]
    exact ⟨rfl, rfl, rfl, rfl, rfl⟩

/-- C13: stray `watchdogEvent` calls before `loseSomeTime` is entered do not alter
its behaviour: two runs that differ only in the value of `watchdogCounter` on
entry (in particular after any number of stray events) perform the same cycles
with the same interval codes, return the same verdict, add the same amount to
the clock and issue the same calls. -/
theorem C13_entry_counter_irrelevant (env : Nat → Nat) (msecs c n : Nat) (st : State) :
    ((loseSomeTime env msecs { st with watchdogCounter := c }).cycles =
        (loseSomeTime env msecs st).cycles ∧
      (loseSomeTime env msecs { st with watchdogCounter := c }).ret =
        (loseSomeTime env msecs st).ret ∧
      elapsed env msecs { st with watchdogCounter := c } = elapsed env msecs st ∧
      (loseSomeTime env msecs { st with watchdogCounter := c }).st.timer0_millis =
        (loseSomeTime env msecs st).st.timer0_millis ∧
      (loseSomeTime env msecs { st with watchdogCounter := c }).st.trace =
        (loseSomeTime env msecs st).st.trace) ∧
    ((loseSomeTime env msecs (Nat.iterate watchdogEvent n st)).cycles =
        (loseSomeTime env msecs st).cycles ∧
      (loseSomeTime env msecs (Nat.iterate watchdogEvent n st)).ret =
        (loseSomeTime env msecs st).ret ∧
      elapsed env msecs (Nat.iterate watchdogEvent n st) = elapsed env msecs st) := by
  have key : ∀ c, (loseSomeTime env msecs { st with watchdogCounter := c }).cycles =
        (loseSomeTime env msecs st).cycles ∧
      (loseSomeTime env msecs { st with watchdogCounter := c }).ret =
        (loseSomeTime env msecs st).ret ∧
      elapsed env msecs { st with watchdogCounter := c } = elapsed env msecs st ∧
      (loseSomeTime env msecs { st with watchdogCounter := c }).st.timer0_millis =
        (loseSomeTime env msecs st).st.timer0_millis ∧
      (loseSomeTime env msecs { st with watchdogCounter := c }).st.trace =
        (loseSomeTime env msecs st).st.trace := by
    intro c
    obtain ⟨h1, h2, h3, h4, h5⟩ := whileLoop_entry_counter env 1 msecs c st
    refine ⟨?_, ?_, ?_, ?_, ?_⟩
    · rw [loseSomeTime_cycles, loseSomeTime_cycles, h3]
    · rw [loseSomeTime_ret, loseSomeTime_ret, h1]
    · unfold elapsed
      rw [loseSomeTime_msleft, loseSomeTime_msleft, h2]
    · rw [loseSomeTime_timer0_millis, loseSomeTime_timer0_millis, h2, h4]
    · rw [loseSomeTime_trace, loseSomeTime_trace, h5]
  refine ⟨key c, ?_⟩
  rw [iterate_watchdogEvent_frame n st]
  obtain ⟨k1, k2, k3, -, -⟩ := key (Nat.iterate watchdogEvent n st).watchdogCounter
  exact ⟨k1, k2, k3⟩

/-! ## Time accounting and the order of the codes -/

/-- Accounting along the loop: what is left plus what the cycles were charged is
the initial budget; each cycle lowers the budget by exactly its charge; after a
timer-woken cycle the loop condition is tested again. -/
theorem whileLoop_credit (env : Nat → Nat) (ok msleft : Nat) (st : State)
    (hm : msleft < 65536) :
    (whileLoop env ok msleft st).msleft +
        ((whileLoop env ok msleft st).cycles.map credit).sum = msleft ∧
    (∀ i (hi : i < (whileLoop env ok msleft st).cycles.length),
      (budgets (whileLoop env ok msleft st).cycles (whileLoop env ok msleft st).msleft)[i + 1]? =
          some (((whileLoop env ok msleft st).cycles[i]).msleft -
            credit ((whileLoop env ok msleft st).cycles[i])) ∧
        credit ((whileLoop env ok msleft st).cycles[i]) ≤
          ((whileLoop env ok msleft st).cycles[i]).msleft) ∧
    (∀ i (hi : i < (whileLoop env ok msleft st).cycles.length),
      ((whileLoop env ok msleft st).cycles[i]).counter ≠ 0 →
        i + 1 < (whileLoop env ok msleft st).cycles.length ∨
          (whileLoop env ok msleft st).msleft < 16) := by
  refine whileLoop_induction
    (fun _ _ msleft _ r =>
      r.msleft + (r.cycles.map credit).sum = msleft ∧
      (∀ i (hi : i < r.cycles.length),
        (budgets r.cycles r.msleft)[i + 1]? = some ((r.cycles[i]).msleft - credit (r.cycles[i])) ∧
          credit (r.cycles[i]) ≤ (r.cycles[i]).msleft) ∧
      (∀ i (hi : i < r.cycles.length), (r.cycles[i]).counter ≠ 0 →
        i + 1 < r.cycles.length ∨ r.msleft < 16))
    ?_ ?_ ?_ env ok msleft st hm
  · intro env ok msleft st _
    simp
  · intro env ok msleft st h16 _ _
    obtain ⟨h1, h2, h3, h4⟩ := halfms_selectWdp msleft h16
    have hcr : credit (Cycle.mk msleft (selectWdp msleft) 0) = 8 * 2 ^ selectWdp msleft := by
      simp [credit]
    refine ⟨?_, ?_, ?_⟩
    · simp only [List.map_cons, List.map_nil, List.sum_cons, List.sum_nil, hcr]
      omega
    · intro i hi
      simp only [List.length_singleton] at hi
      have : i = 0 := by omega
      subst this
      simp only [List.getElem_cons_zero, hcr]
      exact ⟨by simp [budgets], by omega⟩
    · intro i hi hne
      simp only [List.length_singleton] at hi
      have : i = 0 := by omega
      subst this
      simp at hne
  · intro env ok msleft st h16 hm hc r hr ih
    obtain ⟨ih1, ih2, ih3⟩ := ih
    obtain ⟨h1, h2, h3, h4⟩ := halfms_selectWdp msleft h16
    obtain ⟨hhead, -, -, -, hfin⟩ := whileLoop_budget (fun k => env (k + 1)) ok
      (msleft - 16 * 2 ^ selectWdp msleft) (sleepCycle (selectWdp msleft) (env 0) st)
      (by omega)
    rw [← hr] at hhead hfin
    have hcr : credit (Cycle.mk msleft (selectWdp msleft) (toByte (env 0))) =
        16 * 2 ^ selectWdp msleft := by
      simp [credit, hc]
    have hb : budgets (Cycle.mk msleft (selectWdp msleft) (toByte (env 0)) :: r.cycles)
        r.msleft = msleft :: budgets r.cycles r.msleft := by
      simp [budgets]
    refine ⟨?_, ?_, ?_⟩
    · simp only [List.map_cons, List.sum_cons, hcr]
      omega
    · intro i hi
      show (budgets (_ :: r.cycles) r.msleft)[i + 1]? = _ ∧ _
      rw [hb]
      cases i with
      | zero =>
        simp only [List.getElem_cons_zero, hcr, List.getElem?_cons_succ]
        rw [← List.head?_eq_getElem?, hhead]
        exact ⟨rfl, by omega⟩
      | succ j =>
        simp only [List.length_cons] at hi
        simpa using ih2 j (by omega)
    · intro i hi hne
      cases i with
      | zero =>
        by_cases hnil : r.cycles = []
        · right
          have := hfin (by rw [hnil]; simp)
          exact this.2
        · left
          have := List.length_pos.mpr hnil
          simp only [List.length_cons]
          omega
      | succ j =>
        simp only [List.length_cons] at hi ⊢
        have := ih3 j (by omega) (by simpa using hne)
        omega

theorem sum_credit_timer (l : List Cycle) (h : ∀ c ∈ l, c.counter ≠ 0) :
    (l.map credit).sum = 16 * (l.map (fun c => 2 ^ c.wdp)).sum := by
  induction l with
  | nil => rfl
  | cons a l ih =>
    have ha : credit a = 16 * 2 ^ a.wdp := by
      simp [credit, h a (List.mem_cons_self _ _)]
    simp only [List.map_cons, List.sum_cons, ha,
      ih (fun c hc => h c (List.mem_cons_of_mem _ hc))]
    omega

/-- C14: time accounting is asymmetric exactly as specified.  For every 16 bit
`msecs` and wake pattern, a cycle with code `c` woken by the timer lowers the
remaining budget by exactly `16 * 2 ^ c` and the loop condition is tested
again, while a cycle woken with the counter at 0 lowers it by exactly
`8 * 2 ^ c` and is the last; the amount added to the clock is the sum of these
charges, so a run whose cycles are timer-woken up to a final foreign-woken one
adds `16 * (2 ^ c_1 + ... + 2 ^ c_k) + 8 * 2 ^ c_(k+1)`. -/
theorem C14_asymmetric_accounting (env : Nat → Nat) (msecs : Nat) (st : State)
    (hm : msecs < 65536) :
    (∀ i (hi : i < (loseSomeTime env msecs st).cycles.length),
      (budgets (loseSomeTime env msecs st).cycles (loseSomeTime env msecs st).msleft)[i + 1]? =
          some (((loseSomeTime env msecs st).cycles[i]).msleft -
            credit ((loseSomeTime env msecs st).cycles[i])) ∧
        credit ((loseSomeTime env msecs st).cycles[i]) ≤
          ((loseSomeTime env msecs st).cycles[i]).msleft) ∧
    (∀ i (hi : i < (loseSomeTime env msecs st).cycles.length),
      ((loseSomeTime env msecs st).cycles[i]).counter ≠ 0 →
        i + 1 < (loseSomeTime env msecs st).cycles.length ∨
          (loseSomeTime env msecs st).msleft < 16) ∧
    (∀ i (hi : i < (loseSomeTime env msecs st).cycles.length),
      ((loseSomeTime env msecs st).cycles[i]).counter = 0 →
        i + 1 = (loseSomeTime env msecs st).cycles.length) ∧
    elapsed env msecs st = ((loseSomeTime env msecs st).cycles.map credit).sum ∧
    (∀ init last, (loseSomeTime env msecs st).cycles = init ++ [last] →
      (∀ c ∈ init, c.counter ≠ 0) → last.counter = 0 →
      elapsed env msecs st = 16 * (init.map (fun c => 2 ^ c.wdp)).sum + 8 * 2 ^ last.wdp) := by
  obtain ⟨h1, h2, h3⟩ := whileLoop_credit env 1 msecs st hm
  obtain ⟨-, hlast, -⟩ := whileLoop_verdict env 1 msecs st hm
  have he := elapsed_eq env msecs st hm
  simp only [loseSomeTime_cycles, loseSomeTime_msleft]
  have hsum : elapsed env msecs st = ((whileLoop env 1 msecs st).cycles.map credit).sum := by
    omega
  refine ⟨h2, h3, hlast, hsum, ?_⟩
  intro init last hcy hinit hl
  rw [hsum, hcy, List.map_append, List.sum_append, sum_credit_timer init hinit]
  simp [credit, hl]

/-- Witness of C14 at `msecs = 100` with a foreign first wake. -/
theorem C14_asymmetric_accounting_witness :
    (100 : Nat) < 65536 ∧
    elapsed (fun _ => 0) 100 idleState =
      ((loseSomeTime (fun _ => 0) 100 idleState).cycles.map credit).sum :=
  ⟨by decide, (C14_asymmetric_accounting (fun _ => 0) 100 idleState (by decide)).2.2.2.1⟩

/-- From one cycle to the next the code never grows, and it drops strictly unless
the earlier cycle ran with code 9. -/
theorem whileLoop_codes (env : Nat → Nat) (ok msleft : Nat) (st : State)
    (hm : msleft < 65536) :
    ∀ i (hi : i + 1 < (whileLoop env ok msleft st).cycles.length),
      ((whileLoop env ok msleft st).cycles[i + 1]).wdp ≤
          ((whileLoop env ok msleft st).cycles[i]).wdp ∧
        (((whileLoop env ok msleft st).cycles[i]).wdp < 9 →
          ((whileLoop env ok msleft st).cycles[i + 1]).wdp <
            ((whileLoop env ok msleft st).cycles[i]).wdp) := by
  refine whileLoop_induction
    (fun _ _ _ _ r => ∀ i (hi : i + 1 < r.cycles.length),
      (r.cycles[i + 1]).wdp ≤ (r.cycles[i]).wdp ∧
        ((r.cycles[i]).wdp < 9 → (r.cycles[i + 1]).wdp < (r.cycles[i]).wdp))
    ?_ ?_ ?_ env ok msleft st hm
  · intro env ok msleft st _ i hi
    simp at hi
  · intro env ok msleft st _ _ _ i hi
    simp at hi
  · intro env ok msleft st h16 hm hc r hr ih i hi
    obtain ⟨hw9, hlo, hhi⟩ := selectWdp_bounds msleft h16
    obtain ⟨-, -, -, hcyc, -⟩ := whileLoop_budget (fun k => env (k + 1)) ok
      (msleft - 16 * 2 ^ selectWdp msleft) (sleepCycle (selectWdp msleft) (env 0) st)
      (by omega)
    rw [← hr] at hcyc
    cases i with
    | zero =>
      simp only [List.length_cons] at hi
      have hmem : r.cycles[0] ∈ r.cycles := List.getElem_mem _
      obtain ⟨hc16, hcle, hcw⟩ := hcyc _ hmem
      obtain ⟨hn9, hnlo, -⟩ := selectWdp_bounds _ hc16
      simp only [List.getElem_cons_succ, List.getElem_cons_zero, zero_add]
      rw [hcw]
      refine ⟨?_, ?_⟩
      · by_cases h9 : selectWdp msleft < 9
        · have := hhi h9
          exact Nat.le_of_lt (selectWdp_lt _ _ hc16 (by omega))
        · omega
      · intro h9
        have := hhi h9
        exact selectWdp_lt _ _ hc16 (by omega)
    | succ j =>
      simp only [List.length_cons] at hi
      simpa using ih j (by omega)

/-- C15, as stated, fails: there is no 16 bit request and wake pattern for which
some cycle selects a strictly larger code than the cycle before it. -/
theorem C15_code_increase_counterexample :
    ¬ ∃ (env : Nat → Nat) (msecs : Nat) (st : State), msecs < 65536 ∧
      ∃ (i : Nat) (hi : i + 1 < (loseSomeTime env msecs st).cycles.length),
        ((loseSomeTime env msecs st).cycles[i]).wdp <
          ((loseSomeTime env msecs st).cycles[i + 1]).wdp := by
  rintro ⟨env, msecs, st, hm, i, hi, hlt⟩
  have := (whileLoop_codes env 1 msecs st hm i hi).1
  simp only [loseSomeTime_cycles] at hlt
  omega

/-- C15, amended: for every 16 bit `msecs` and every wake pattern the sequence of
interval codes chosen over the cycles of one call is non-increasing, and each
code below 9 is followed by a strictly smaller one. -/
theorem C15_codes_non_increasing (env : Nat → Nat) (msecs : Nat) (st : State)
    (hm : msecs < 65536) :
    ∀ i (hi : i + 1 < (loseSomeTime env msecs st).cycles.length),
      ((loseSomeTime env msecs st).cycles[i + 1]).wdp ≤
          ((loseSomeTime env msecs st).cycles[i]).wdp ∧
        (((loseSomeTime env msecs st).cycles[i]).wdp < 9 →
          ((loseSomeTime env msecs st).cycles[i + 1]).wdp <
            ((loseSomeTime env msecs st).cycles[i]).wdp) :=
  whileLoop_codes env 1 msecs st hm

/-- Witness of C15 (amended) at `msecs = 65535` with the timer firing in every
cycle. -/
theorem C15_codes_non_increasing_witness :
    (65535 : Nat) < 65536 ∧
    ∀ i (hi : i + 1 < (loseSomeTime (fun _ => 1) 65535 idleState).cycles.length),
      ((loseSomeTime (fun _ => 1) 65535 idleState).cycles[i + 1]).wdp ≤
        ((loseSomeTime (fun _ => 1) 65535 idleState).cycles[i]).wdp :=
  ⟨by decide, fun i hi =>
    (C15_codes_non_increasing (fun _ => 1) 65535 idleState (by decide) i hi).1⟩

/-! ## The call trace and the rounding of the request -/

theorem sleepCycle_WDTCSR (wdp events : Nat) (st : State) :
    (sleepCycle wdp events st).WDTCSR = wdtcsr (-1) := by
  unfold sleepCycle
  exact watchdogInterrupts_WDTCSR _ _

/-- The loop appends one block of calls per cycle; with no cycle it leaves the
machine untouched, otherwise it leaves `WDTCSR` as the disarming call set it. -/
theorem whileLoop_trace (env : Nat → Nat) (ok msleft : Nat) (st : State)
    (hm : msleft < 65536) :
    (whileLoop env ok msleft st).st.trace =
        st.trace ++ cyclesOps (whileLoop env ok msleft st).cycles ∧
    ((whileLoop env ok msleft st).cycles = [] → (whileLoop env ok msleft st).st = st) ∧
    ((whileLoop env ok msleft st).cycles ≠ [] →
      (whileLoop env ok msleft st).st.WDTCSR = wdtcsr (-1) ∧
      (whileLoop env ok msleft st).st.I = true) := by
  refine whileLoop_induction
    (fun _ _ _ st r => r.st.trace = st.trace ++ cyclesOps r.cycles ∧
      (r.cycles = [] → r.st = st) ∧
      (r.cycles ≠ [] → r.st.WDTCSR = wdtcsr (-1) ∧ r.st.I = true))
    ?_ ?_ ?_ env ok msleft st hm
  · intro env ok msleft st _
    simp [cyclesOps]
  · intro env ok msleft st _ _ _
    refine ⟨?_, by simp, fun _ => ⟨sleepCycle_WDTCSR _ _ _, sleepCycle_I _ _ _⟩⟩
    simp [cyclesOps, cycleOps, sleepCycle_trace]
  · intro env ok msleft st _ _ _ r _ ih
    obtain ⟨ih1, ih2, ih3⟩ := ih
    refine ⟨?_, by simp, fun _ => ?_⟩
    · show r.st.trace = _
      rw [ih1, sleepCycle_trace]
      simp [cyclesOps, cycleOps]
    · show r.st.WDTCSR = _ ∧ r.st.I = true
      by_cases hnil : r.cycles = []
      · rw [ih2 hnil]
        exact ⟨sleepCycle_WDTCSR _ _ _, sleepCycle_I _ _ _⟩
      · exact ih3 hnil

theorem cyclesOps_last (cs : List Cycle) (h : cs ≠ []) :
    ∃ pre, cyclesOps cs = pre ++ [Op.watchdogInterrupts (-1)] := by
  induction cs with
  | nil => exact absurd rfl h
  | cons c cs ih =>
    by_cases hnil : cs = []
    · subst hnil
      exact ⟨[Op.counterReset, Op.watchdogInterrupts (c.wdp : Int), Op.powerDown], by
        simp [cyclesOps, cycleOps]⟩
    · obtain ⟨pre, hpre⟩ := ih hnil
      exact ⟨cycleOps c ++ pre, by simp [cyclesOps, hpre]⟩

theorem cyclesOps_powerDown (cs : List Cycle) (h : ∀ c ∈ cs, c.wdp ≤ 9) :
    ∀ i, (cyclesOps cs)[i]? = some Op.powerDown →
      1 ≤ i ∧ ∃ code : Nat, code ≤ 9 ∧
        (cyclesOps cs)[i - 1]? = some (Op.watchdogInterrupts (code : Int)) := by
  induction cs with
  | nil =>
    intro i hi
    simp [cyclesOps] at hi
  | cons c cs ih =>
    intro i hi
    have hc : cyclesOps (c :: cs) = Op.counterReset :: Op.watchdogInterrupts (c.wdp : Int) ::
        Op.powerDown :: Op.watchdogInterrupts (-1) :: cyclesOps cs := by
      simp [cyclesOps, cycleOps]
    rw [hc] at hi ⊢
    match i, hi with
    | 0, hi => simp at hi
    | 1, hi => simp at hi
    | 2, _ => exact ⟨by omega, c.wdp, h c (List.mem_cons_self _ _), by simp⟩
    | 3, hi => simp at hi
    | j + 4, hi =>
      simp only [List.getElem?_cons_succ] at hi
      obtain ⟨h1, code, hcode, hprev⟩ := ih (fun c hc => h c (List.mem_cons_of_mem _ hc)) j hi
      refine ⟨by omega, code, hcode, ?_⟩
      have : j + 4 - 1 = (j - 1) + 4 := by omega
      rw [this]
      simpa using hprev

/-- C16: for every 16 bit `msecs` and wake pattern the calls issued by
`loseSomeTime` are the concatenation of one block per cycle of the form
`[counter := 0, watchdogInterrupts (code), powerDown, watchdogInterrupts (-1)]`
with `code` in 0..9, whatever woke the cycle.  So whenever a cycle ran the last
call is the disarming one and `WDTCSR` holds the disarmed value, and every
`powerDown` is immediately preceded by an arming `watchdogInterrupts (code)`. -/
theorem C16_trace_is_cycle_blocks (env : Nat → Nat) (msecs : Nat) (st : State)
    (hm : msecs < 65536) :
    (loseSomeTime env msecs st).st.trace =
        st.trace ++ cyclesOps (loseSomeTime env msecs st).cycles ∧
    (∀ c ∈ (loseSomeTime env msecs st).cycles, c.wdp ≤ 9) ∧
    ((loseSomeTime env msecs st).cycles ≠ [] →
      (∃ pre, (loseSomeTime env msecs st).st.trace = pre ++ [Op.watchdogInterrupts (-1)]) ∧
      (loseSomeTime env msecs st).st.WDTCSR = 0) ∧
    (∀ i, (cyclesOps (loseSomeTime env msecs st).cycles)[i]? = some Op.powerDown →
      1 ≤ i ∧ ∃ code : Nat, code ≤ 9 ∧
        (cyclesOps (loseSomeTime env msecs st).cycles)[i - 1]? =
          some (Op.watchdogInterrupts (code : Int))) := by
  obtain ⟨ht, -, hw⟩ := whileLoop_trace env 1 msecs st hm
  obtain ⟨-, -, -, hcyc, -⟩ := whileLoop_budget env 1 msecs st hm
  have h9 : ∀ c ∈ (whileLoop env 1 msecs st).cycles, c.wdp ≤ 9 := by
    intro c hcm
    obtain ⟨hc16, -, hcw⟩ := hcyc c hcm
    rw [hcw]
    exact (selectWdp_bounds _ hc16).1
  rw [loseSomeTime_trace, loseSomeTime_cycles]
  refine ⟨ht, h9, ?_, cyclesOps_powerDown _ h9⟩
  intro hne
  obtain ⟨pre, hpre⟩ := cyclesOps_last _ hne
  refine ⟨⟨st.trace ++ pre, by rw [ht, hpre, List.append_assoc]⟩, ?_⟩
  have : (loseSomeTime env msecs st).st.WDTCSR = (whileLoop env 1 msecs st).st.WDTCSR := by
    simp [loseSomeTime, State.write]
  rw [this, (hw hne).1]
  decide

/-- Witness of C16 at `msecs = 100` with the timer firing in every cycle. -/
theorem C16_trace_is_cycle_blocks_witness :
    (100 : Nat) < 65536 ∧
    (loseSomeTime (fun _ => 1) 100 idleState).st.trace =
      idleState.trace ++ cyclesOps (loseSomeTime (fun _ => 1) 100 idleState).cycles :=
  ⟨by decide, (C16_trace_is_cycle_blocks (fun _ => 1) 100 idleState (by decide)).1⟩

/-- Every value of `msleft` is congruent to the initial budget modulo 8, and
modulo 16 at the end of a run whose cycles were all timer-woken. -/
theorem whileLoop_congruence (env : Nat → Nat) (ok msleft : Nat) (st : State)
    (hm : msleft < 65536) :
    (∀ b ∈ budgets (whileLoop env ok msleft st).cycles (whileLoop env ok msleft st).msleft,
      b % 8 = msleft % 8) ∧
    ((∀ c ∈ (whileLoop env ok msleft st).cycles, c.counter ≠ 0) →
      (whileLoop env ok msleft st).msleft % 16 = msleft % 16) := by
  refine whileLoop_induction
    (fun _ _ msleft _ r =>
      (∀ b ∈ budgets r.cycles r.msleft, b % 8 = msleft % 8) ∧
      ((∀ c ∈ r.cycles, c.counter ≠ 0) → r.msleft % 16 = msleft % 16))
    ?_ ?_ ?_ env ok msleft st hm
  · intro env ok msleft st _
    simp [budgets]
  · intro env ok msleft st h16 _ _
    obtain ⟨h1, h2, h3, h4⟩ := halfms_selectWdp msleft h16
    refine ⟨?_, fun hall => absurd rfl (hall _ (List.mem_singleton.mpr rfl))⟩
    intro b hb
    simp only [budgets, List.map_cons, List.map_nil, List.singleton_append, List.mem_cons,
      List.mem_singleton, List.not_mem_nil, or_false] at hb
    rcases hb with rfl | rfl
    · rfl
    · omega
  · intro env ok msleft st h16 _ _ r _ ih
    obtain ⟨ih1, ih2⟩ := ih
    obtain ⟨h1, h2, h3, h4⟩ := halfms_selectWdp msleft h16
    refine ⟨?_, ?_⟩
    · intro b hb
      have hb2 : b = msleft ∨ b ∈ budgets r.cycles r.msleft := by
        simpa [budgets] using hb
      rcases hb2 with rfl | hb2
      · rfl
      · have := ih1 b hb2
        omega
    · intro hall
      have := ih2 (fun c hcm => hall c (List.mem_cons_of_mem _ hcm))
      show r.msleft % 16 = msleft % 16
      omega

/-- C17: when the counter is non-zero at every wake, `loseSomeTime` rounds the
request down to a multiple of 16 ms: for every 16 bit `msecs` the final
remaining budget is exactly `msecs mod 16` and the amount added to the clock is
`msecs - msecs mod 16`; under any wake pattern every value of the remaining
budget is congruent to `msecs` modulo 8. -/
theorem C17_rounds_down_to_16 (env : Nat → Nat) (msecs : Nat) (st : State)
    (hm : msecs < 65536) :
    ((∀ c ∈ (loseSomeTime env msecs st).cycles, c.counter ≠ 0) →
      (loseSomeTime env msecs st).msleft = msecs % 16 ∧
      elapsed env msecs st = msecs - msecs % 16 ∧
      (loseSomeTime env msecs st).st.timer0_millis =
        toULong (st.timer0_millis + (msecs - msecs % 16))) ∧
    (∀ b ∈ budgets (loseSomeTime env msecs st).cycles (loseSomeTime env msecs st).msleft,
      b % 8 = msecs % 8) := by
  obtain ⟨hc8, hc16⟩ := whileLoop_congruence env 1 msecs st hm
  obtain ⟨-, -, hle, -, hfin⟩ := whileLoop_budget env 1 msecs st hm
  have he := elapsed_eq env msecs st hm
  simp only [loseSomeTime_cycles, loseSomeTime_msleft]
  refine ⟨?_, hc8⟩
  intro hall
  have h1 := hc16 hall
  have h2 := (hfin hall).2
  have hfinal : (whileLoop env 1 msecs st).msleft = msecs % 16 := by omega
  refine ⟨hfinal, by omega, ?_⟩
  rw [loseSomeTime_timer0_millis, (whileLoop_clock env 1 msecs st hm).1,
    subWord_eq _ _ hle hm, hfinal]

/-- Witness of C17: with the timer firing in every cycle a request of 100 ms adds
96 ms to the clock and a request of 50 ms adds 48 ms. -/
theorem C17_rounds_down_to_16_witness :
    elapsed (fun _ => 1) 100 idleState = 96 ∧ elapsed (fun _ => 1) 50 idleState = 48 :=
  ⟨((C17_rounds_down_to_16 (fun _ => 1) 100 idleState (by decide)).1
      (cycles_counter_ne_zero _ _ _ (by decide) (fun _ => by decide))).2.1,
   ((C17_rounds_down_to_16 (fun _ => 1) 50 idleState (by decide)).1
      (cycles_counter_ne_zero _ _ _ (by decide) (fun _ => by decide))).2.1⟩

/-! ## The number of cycles -/

theorem selectWdp_eq (r w : Nat) (h16 : 16 ≤ r) (hw : w ≤ 9) (hlo : 16 * 2 ^ w ≤ r)
    (hhi : w < 9 → r < 32 * 2 ^ w) : selectWdp r = w := by
  apply Nat.le_antisymm
  · by_cases h9 : w < 9
    · have := hhi h9
      have := selectWdp_lt r (w + 1) h16 (by rw [pow_succ]; omega)
      omega
    · have := (selectWdp_bounds r h16).1
      omega
  · exact selectWdp_largest r w h16 hw hlo

/-- Bounds on the number of cycles: below 8192 ms the codes drop strictly, so at
most `code + 1` cycles follow; every cycle with code 9 costs 8192 ms unless it
is the last. -/
theorem whileLoop_cycle_count (env : Nat → Nat) (ok msleft : Nat) (st : State)
    (hm : msleft < 65536) :
    (msleft < 16 → (whileLoop env ok msleft st).cycles.length = 0) ∧
    (16 ≤ msleft → msleft < 8192 →
      (whileLoop env ok msleft st).cycles.length ≤ selectWdp msleft + 1) ∧
    (whileLoop env ok msleft st).cycles.length ≤ msleft / 8192 + 9 ∧
    (whileLoop env ok msleft st).cycles.countP (fun c => c.wdp = 9) ≤ msleft / 8192 := by
  refine whileLoop_induction
    (fun _ _ msleft _ r =>
      (msleft < 16 → r.cycles.length = 0) ∧
      (16 ≤ msleft → msleft < 8192 → r.cycles.length ≤ selectWdp msleft + 1) ∧
      r.cycles.length ≤ msleft / 8192 + 9 ∧
      r.cycles.countP (fun c => c.wdp = 9) ≤ msleft / 8192)
    ?_ ?_ ?_ env ok msleft st hm
  · intro env ok msleft st h
    exact ⟨fun _ => rfl, fun h1 _ => by omega, by simp, by simp⟩
  · intro env ok msleft st h16 _ _
    obtain ⟨hw9, hlo, hhi⟩ := selectWdp_bounds msleft h16
    refine ⟨by omega, fun _ _ => by simp, by simp, ?_⟩
    by_cases h9 : selectWdp msleft = 9
    · rw [h9] at hlo
      simp [List.countP_cons, h9]
      omega
    · simp [List.countP_cons, h9]
  · intro env ok msleft st h16 hm _ r _ ih
    obtain ⟨ih1, ih2, ih3, ih4⟩ := ih
    obtain ⟨hw9, hlo, hhi⟩ := selectWdp_bounds msleft h16
    have hsmall : 16 ≤ msleft → msleft < 8192 → r.cycles.length + 1 ≤ selectWdp msleft + 1 := by
      intro _ hlt
      have hw : selectWdp msleft < 9 := selectWdp_lt msleft 9 h16 (by omega)
      have hup := hhi hw
      by_cases hr16 : msleft - 16 * 2 ^ selectWdp msleft < 16
      · have := ih1 hr16
        omega
      · have hlt2 := selectWdp_lt (msleft - 16 * 2 ^ selectWdp msleft) (selectWdp msleft)
          (by omega) (by omega)
        have := ih2 (by omega) (by omega)
        omega
    refine ⟨by omega, ?_, ?_, ?_⟩
    · intro a b
      simpa using hsmall a b
    · show (_ :: r.cycles).length ≤ _
      simp only [List.length_cons]
      by_cases hlt : msleft < 8192
      · have := hsmall h16 hlt
        have hw : selectWdp msleft < 9 := selectWdp_lt msleft 9 h16 (by omega)
        omega
      · have h9 : selectWdp msleft = 9 :=
          Nat.le_antisymm hw9 (selectWdp_largest msleft 9 h16 (by omega) (by omega))
        rw [h9] at ih3
        omega
    · show (_ :: r.cycles).countP _ ≤ _
      by_cases h9 : selectWdp msleft = 9
      · rw [h9] at ih4 hlo
        simp only [List.countP_cons, h9, decide_True, if_true]
        omega
      · have hw : selectWdp msleft < 9 := by omega
        have hup := hhi hw
        have hpow : 2 ^ selectWdp msleft ≤ 2 ^ 8 := Nat.pow_le_pow_right (by omega) (by omega)
        have hcount : (Cycle.mk msleft (selectWdp msleft) (toByte (env 0)) :: r.cycles).countP
            (fun c => c.wdp = 9) = r.cycles.countP (fun c => c.wdp = 9) := by
          simp [List.countP_cons, h9]
        rw [hcount]
        omega

/-- One timer-woken step of a run with the same number of watchdog events in every
cycle, for a budget whose code is known. -/
theorem length_const_step (n ok m w k : Nat) (hn : toByte n ≠ 0) (h16 : 16 ≤ m)
    (hm : m < 65536) (hw : w ≤ 9) (hlo : 16 * 2 ^ w ≤ m) (hhi : w < 9 → m < 32 * 2 ^ w)
    (m' : Nat) (hm' : m - 16 * 2 ^ w = m')
    (ih : ∀ st, (whileLoop (fun _ => n) ok m' st).cycles.length = k) :
    ∀ st, (whileLoop (fun _ => n) ok m st).cycles.length = k + 1 := by
  intro st
  have hsel : selectWdp m = w := selectWdp_eq m w h16 hw hlo hhi
  obtain ⟨h1, h2, h3, h4⟩ := halfms_selectWdp m h16
  have hs : subWord (subWord m (halfms (selectWdp m))) (halfms (selectWdp m)) = m' := by
    rw [subWord_eq _ _ (by omega) hm, subWord_eq _ _ (by omega) (by omega), h4, hsel]
    omega
  rw [whileLoop_wdt (fun _ => n) ok m st h16 hn, hs]
  simp only [List.length_cons]
  rw [ih]

/-- The longest run: 65535 ms with the timer firing in every cycle takes 16 cycles
(seven with code 9, then codes 8 down to 0). -/
theorem length_65535 (st : State) :
    (whileLoop (fun _ => 1) 1 65535 st).cycles.length = 16 := by
  have hn : toByte 1 ≠ 0 := by decide
  have e0 : ∀ st, (whileLoop (fun _ => 1) 1 15 st).cycles.length = 0 := fun st => by
    rw [whileLoop_exit _ _ _ _ (by decide)]
    rfl
  have e1 := length_const_step 1 1 31 0 0 hn (by decide) (by decide) (by decide)
    (by norm_num) (by norm_num) 15 (by norm_num) e0
  have e2 := length_const_step 1 1 63 1 1 hn (by decide) (by decide) (by decide)
    (by norm_num) (by norm_num) 31 (by norm_num) e1
  have e3 := length_const_step 1 1 127 2 2 hn (by decide) (by decide) (by decide)
    (by norm_num) (by norm_num) 63 (by norm_num) e2
  have e4 := length_const_step 1 1 255 3 3 hn (by decide) (by decide) (by decide)
    (by norm_num) (by norm_num) 127 (by norm_num) e3
  have e5 := length_const_step 1 1 511 4 4 hn (by decide) (by decide) (by decide)
    (by norm_num) (by norm_num) 255 (by norm_num) e4
  have e6 := length_const_step 1 1 1023 5 5 hn (by decide) (by decide) (by decide)
    (by norm_num) (by norm_num) 511 (by norm_num) e5
  have e7 := length_const_step 1 1 2047 6 6 hn (by decide) (by decide) (by decide)
    (by norm_num) (by norm_num) 1023 (by norm_num) e6
  have e8 := length_const_step 1 1 4095 7 7 hn (by decide) (by decide) (by decide)
    (by norm_num) (by norm_num) 2047 (by norm_num) e7
  have e9 := length_const_step 1 1 8191 8 8 hn (by decide) (by decide) (by decide)
    (by norm_num) (by norm_num) 4095 (by norm_num) e8
  have e10 := length_const_step 1 1 16383 9 9 hn (by decide) (by decide) (by decide)
    (by norm_num) (by norm_num) 8191 (by norm_num) e9
  have e11 := length_const_step 1 1 24575 9 10 hn (by decide) (by decide) (by decide)
    (by norm_num) (by norm_num) 16383 (by norm_num) e10
  have e12 := length_const_step 1 1 32767 9 11 hn (by decide) (by decide) (by decide)
    (by norm_num) (by norm_num) 24575 (by norm_num) e11
  have e13 := length_const_step 1 1 40959 9 12 hn (by decide) (by decide) (by decide)
    (by norm_num) (by norm_num) 32767 (by norm_num) e12
  have e14 := length_const_step 1 1 49151 9 13 hn (by decide) (by decide) (by decide)
    (by norm_num) (by norm_num) 40959 (by norm_num) e13
  have e15 := length_const_step 1 1 57343 9 14 hn (by decide) (by decide) (by decide)
    (by norm_num) (by norm_num) 49151 (by norm_num) e14
  exact length_const_step 1 1 65535 9 15 hn (by decide) (by decide) (by decide)
    (by norm_num) (by norm_num) 57343 (by norm_num) e15 st

/-- C18: for every 16 bit `msecs` and every wake pattern `loseSomeTime` performs
at most 16 sleep cycles: at most 7 of them have code 9, the codes never grow from
one cycle to the next and drop strictly below code 9; the bound is attained for
`msecs = 65535` with the timer firing in every cycle. -/
theorem C18_at_most_16_cycles (env : Nat → Nat) (msecs : Nat) (st : State)
    (hm : msecs < 65536) :
    (loseSomeTime env msecs st).cycles.length ≤ 16 ∧
    (loseSomeTime env msecs st).cycles.countP (fun c => c.wdp = 9) ≤ 7 ∧
    (∀ i (hi : i + 1 < (loseSomeTime env msecs st).cycles.length),
      ((loseSomeTime env msecs st).cycles[i + 1]).wdp ≤
          ((loseSomeTime env msecs st).cycles[i]).wdp ∧
        (((loseSomeTime env msecs st).cycles[i]).wdp < 9 →
          ((loseSomeTime env msecs st).cycles[i + 1]).wdp <
            ((loseSomeTime env msecs st).cycles[i]).wdp)) ∧
    (loseSomeTime (fun _ => 1) 65535 idleState).cycles.length = 16 := by
  obtain ⟨-, -, hlen, h9⟩ := whileLoop_cycle_count env 1 msecs st hm
  simp only [loseSomeTime_cycles]
  exact ⟨by omega, by omega, whileLoop_codes env 1 msecs st hm, length_65535 idleState⟩

/-- Witness of C18 at `msecs = 65535` with the timer firing in every cycle. -/
theorem C18_at_most_16_cycles_witness :
    (65535 : Nat) < 65536 ∧
    (loseSomeTime (fun _ => 1) 65535 idleState).cycles.length ≤ 16 ∧
    (loseSomeTime (fun _ => 1) 65535 idleState).cycles.length = 16 :=
  have h := C18_at_most_16_cycles (fun _ => 1) 65535 idleState (by decide)
  ⟨by decide, h.1, h.2.2.2⟩

/-! ## The interrupt flag at the clock correction -/

theorem whileLoop_cycles_ne_nil (env : Nat → Nat) (ok msleft : Nat) (st : State)
    (h : 16 ≤ msleft) : (whileLoop env ok msleft st).cycles ≠ [] := by
  by_cases hc : toByte (env 0) = 0
  · rw [whileLoop_irq env ok msleft st h hc]
    simp
  · rw [whileLoop_wdt env ok msleft st h hc]
    simp

/-- The clock correction is the last logged write, made with the interrupt flag
the loop left: set if a cycle ran, the flag on entry otherwise. -/
theorem loseSomeTime_clock_write (env : Nat → Nat) (msecs : Nat) (st : State)
    (hm : msecs < 65536) :
    ∃ pre, clockWrites { st with writes := pre } = clockWrites st ∧
      (loseSomeTime env msecs st).st.writes = pre ++
        [Write.mk .timer0_millis
          ((st.timer0_millis + (msecs - (loseSomeTime env msecs st).msleft)) % 2 ^ 32)
          (if (loseSomeTime env msecs st).cycles = [] then st.I else true)] := by
  obtain ⟨-, -, hle, -, -⟩ := whileLoop_budget env 1 msecs st hm
  obtain ⟨hclk, hcw⟩ := whileLoop_clock env 1 msecs st hm
  obtain ⟨-, hnil, hcons⟩ := whileLoop_trace env 1 msecs st hm
  refine ⟨(whileLoop env 1 msecs st).st.writes, hcw, ?_⟩
  rw [loseSomeTime_writes, hclk, subWord_eq _ _ hle hm, loseSomeTime_msleft,
    loseSomeTime_cycles]
  have hI : (whileLoop env 1 msecs st).st.I =
      (if (whileLoop env 1 msecs st).cycles = [] then st.I else true) := by
    by_cases hc : (whileLoop env 1 msecs st).cycles = []
    · rw [if_pos hc, hnil hc]
    · rw [if_neg hc, (hcons hc).2]
  rw [← hI]
  rfl

/-- C19, as stated, fails: in a run of 100 ms with the timer firing in every
cycle, entered with interrupts disabled, the write that corrects the clock is
made with the global interrupt flag set, so nothing keeps the tick interrupt
from being serviced during the read-modify-write. -/
theorem C19_clock_write_unguarded_counterexample :
    maskedState.I = false ∧
    (loseSomeTime (fun _ => 1) 100 maskedState).st.writes.getLast? =
      some (Write.mk .timer0_millis 96 true) := by
  refine ⟨rfl, ?_⟩
  have hm : (100 : Nat) < 65536 := by decide
  have hall := cycles_counter_ne_zero (fun _ => 1) 100 maskedState hm
    (fun _ => (by decide : toByte 1 ≠ 0))
  rw [loseSomeTime_cycles] at hall
  have h16 := (whileLoop_congruence (fun _ => 1) 1 100 maskedState hm).2 hall
  have hlt := ((whileLoop_budget (fun _ => 1) 1 100 maskedState hm).2.2.2.2 hall).2
  have hfin : (whileLoop (fun _ => 1) 1 100 maskedState).msleft = 4 := by omega
  have hne := whileLoop_cycles_ne_nil (fun _ => 1) 1 100 maskedState (by decide)
  have hI := ((whileLoop_trace (fun _ => 1) 1 100 maskedState hm).2.2 hne).2
  have hval : toULong (maskedState.timer0_millis + subWord 100 4) = 96 := by decide
  rw [loseSomeTime_writes, (whileLoop_clock (fun _ => 1) 1 100 maskedState hm).1, hfin, hI,
    hval]
  simp

/-- C19, amended: the correction of the millisecond clock at the end of
`loseSomeTime` is a single write (one read-modify-write, the last logged
write of the call) executed without any guard: the global interrupt flag at
that moment is the one the loop left, which is set whenever at least one sleep
cycle ran and is the flag on entry otherwise; in particular it is set whenever
`msecs ≥ 16` or interrupts were enabled on entry. -/
theorem C19_clock_write_unguarded (env : Nat → Nat) (msecs : Nat) (st : State)
    (hm : msecs < 65536) :
    (∃ pre, clockWrites { st with writes := pre } = clockWrites st ∧
      (loseSomeTime env msecs st).st.writes = pre ++
        [Write.mk .timer0_millis
          ((st.timer0_millis + (msecs - (loseSomeTime env msecs st).msleft)) % 2 ^ 32)
          (if (loseSomeTime env msecs st).cycles = [] then st.I else true)]) ∧
    (16 ≤ msecs ∨ st.I = true →
      (if (loseSomeTime env msecs st).cycles = [] then st.I else true) = true) := by
  refine ⟨loseSomeTime_clock_write env msecs st hm, ?_⟩
  intro h
  by_cases hc : (loseSomeTime env msecs st).cycles = []
  · rw [if_pos hc]
    rcases h with h | h
    · exact absurd hc (whileLoop_cycles_ne_nil env 1 msecs st h)
    · exact h
  · rw [if_neg hc]

/-- Witness of C19 (amended) at `msecs = 100`, entered with interrupts disabled. -/
theorem C19_clock_write_unguarded_witness :
    (100 : Nat) < 65536 ∧
    (if (loseSomeTime (fun _ => 1) 100 maskedState).cycles = [] then maskedState.I
      else true) = true :=
  ⟨by decide,
    (C19_clock_write_unguarded (fun _ => 1) 100 maskedState (by decide)).2
      (Or.inl (by decide))⟩

end Sleepy
